import Mathlib

/-! # CppIOBound: the fgets / strtok read-and-parse benchmark

A shallow embedding of `src/CppIOBound/CppIOBound.cpp` (`ParseLine`,
`ReadFileFgets`) together with the C library routines it calls
(`fgets`, `strtok`, `atof`, `atoi`), which are modelled after ISO C.

Conventions of the embedding:

* a `char` is a `Char`; a file is the list of characters that the text-mode
  stream opened by `fopen(fileName, "r")` delivers;
* a `char *` into the line buffer is an offset (`Nat`) into the buffer, the
  buffer itself is a `List Char` that is followed by the terminating NUL
  written by `fgets` (reading at or past the end of the list yields NUL);
* `std::vector<T>` is `List T`, `push_back` appends at the end;
* `int` is `Int` reduced to 32 bits where the program does arithmetic on it
  (`lines++`), `long long` values are `Int` (the quantities held in them, a
  file size and a millisecond count, stay far below 2^63);
* a `float`/`double` is a `FloatVal`: the exact rational value of the
  result before rounding to the binary format, or an infinity, or NaN.
-/

namespace CppIOBound

/-! ## Values -/

/-- A floating-point value: `finite q` stands for the binary floating-point
number nearest to the rational `q` (rounding and the sign of zero are not
modelled), `infinite` for plus or minus infinity, `nan` for a NaN. -/
inductive FloatVal where
  | finite (q : ℚ)
  | infinite (negative : Bool)
  | nan
  deriving DecidableEq

/-- Unary minus on floating-point values. -/
def FloatVal.neg : FloatVal → FloatVal
  | .finite q => .finite (-q)
  | .infinite n => .infinite (!n)
  | .nan => .nan

/-- IEEE 754 division `x / y` of two finite operands: a zero divisor gives an
infinity (with the sign of `x`), or NaN when `x` is zero as well; no trap is
raised. -/
def floatDiv (x y : ℚ) : FloatVal :=
  if y = 0 then
    if x = 0 then .nan else .infinite (decide (x < 0))
  else .finite (x / y)

/-- Largest value of a 32-bit `int`. -/
def INT_MAX : Int := 2147483647

/-- Smallest value of a 32-bit `int`. -/
def INT_MIN : Int := -2147483648

/-- Reduction of an integer to the 32-bit two's-complement range, the result
of `int` arithmetic on the x86/x64 targets of the project (ISO C++ leaves
signed overflow undefined). -/
def wrapInt32 (x : Int) : Int := (x + 2147483648) % 4294967296 - 2147483648

/-! ## C library: character classes -/

/-- The NUL character, terminator of C strings. -/
def NUL : Char := Char.ofNat 0

/-- The C function `isspace` in the "C" locale: space, `\t`, `\n`, `\v`, `\f`, `\r`. -/
def isspace (c : Char) : Bool := c.toNat = 32 || (9 ≤ c.toNat && c.toNat ≤ 13)

/-- The C function `isdigit`: the decimal digits `0`..`9`. -/
def isdigit (c : Char) : Bool := 48 ≤ c.toNat && c.toNat ≤ 57

/-- The C function `isxdigit`: the hexadecimal digits `0`..`9`, `a`..`f`, `A`..`F`. -/
def isxdigit (c : Char) : Bool :=
  isdigit c || (97 ≤ c.toNat && c.toNat ≤ 102) || (65 ≤ c.toNat && c.toNat ≤ 70)

/-- The C function `tolower`: lower case for the letters `A`..`Z`, identity elsewhere. -/
def tolower (c : Char) : Char :=
  if 65 ≤ c.toNat ∧ c.toNat ≤ 90 then Char.ofNat (c.toNat + 32) else c

/-- Value of one (hexa)decimal digit. -/
def digitValue (c : Char) : Nat :=
  if isdigit c then c.toNat - 48
  else if 97 ≤ c.toNat then c.toNat - 87
  else c.toNat - 55

/-- Value of a digit string in the given base, most significant digit first. -/
def digitsValue (base : Nat) (ds : List Char) : Nat :=
  ds.foldl (fun v c => base * v + digitValue c) 0

/-- An optional leading `+` or `-`: whether the sign is negative, and the rest. -/
def splitSign : List Char → Bool × List Char
  | [] => (false, [])
  | c :: r => if c = '-' then (true, r) else if c = '+' then (false, r) else (false, c :: r)

/-! ## C library: `atoi` and `atof` -/

/-- The C function `atoi`, on the characters of the string before its NUL:
leading white space is skipped, an optional sign and the longest run of
decimal digits are converted, whatever follows is ignored; without any digit
the result is 0. A value outside the range of `int` yields `INT_MAX` or
`INT_MIN`, as the Microsoft C runtime documents (ISO C leaves it undefined). -/
def atoi (nptr : List Char) : Int :=
  let signed := splitSign (nptr.dropWhile isspace)
  let magnitude : Int := (digitsValue 10 (signed.2.takeWhile isdigit) : Nat)
  let v : Int := if signed.1 then -magnitude else magnitude
  if INT_MAX < v then INT_MAX else if v < INT_MIN then INT_MIN else v

/-- The power `b ^ e` of a positive base for an integer exponent. -/
def powInt (b : ℚ) (e : Int) : ℚ :=
  if 0 ≤ e then b ^ e.toNat else 1 / b ^ (-e).toNat

/-- An optional exponent part of a floating-point text: the marker letter
(`e` or `p`, in either case), an optional sign and at least one decimal
digit. The value is 0 when the part is absent or incomplete. -/
def exponentPart (marker : Char) : List Char → Int
  | [] => 0
  | c :: r =>
    if tolower c = marker then
      let signed := splitSign r
      let ds := signed.2.takeWhile isdigit
      if ds = [] then 0
      else if signed.1 then -((digitsValue 10 ds : Nat) : Int) else (digitsValue 10 ds : Nat)
    else 0

/-- Whether `s` begins with the lower-case word `word`, ignoring case. -/
def startsWithWord (word s : List Char) : Bool :=
  decide ((s.take word.length).map tolower = word)

/-- The digits of a mantissa: the digits before an optional point, the digits
after it, and the text that follows. -/
def mantissaDigits (digit : Char → Bool) (s : List Char) :
    List Char × List Char × List Char :=
  let whole := s.takeWhile digit
  match s.dropWhile digit with
  | [] => (whole, [], [])
  | c :: r =>
    if c = '.' then (whole, r.takeWhile digit, r.dropWhile digit)
    else (whole, [], c :: r)

/-- Decimal form of `strtod`: digits with an optional point and an optional
`e` exponent; without any digit no conversion is performed and the value is
zero. -/
def decimalFloat (s : List Char) : FloatVal :=
  let m := mantissaDigits isdigit s
  if m.1 ++ m.2.1 = [] then .finite 0
  else .finite ((digitsValue 10 (m.1 ++ m.2.1) : ℚ)
          * powInt 10 (exponentPart 'e' m.2.2 - (m.2.1.length : Int)))

/-- Hexadecimal form of `strtod` (`0x` already consumed): hexadecimal digits
with an optional point and an optional binary `p` exponent; `none` when no
hexadecimal digit follows the `0x`. -/
def hexFloat (s : List Char) : Option FloatVal :=
  let m := mantissaDigits isxdigit s
  if m.1 ++ m.2.1 = [] then none
  else some (.finite ((digitsValue 16 (m.1 ++ m.2.1) : ℚ)
          * powInt 2 (exponentPart 'p' m.2.2 - 4 * (m.2.1.length : Int))))

/-- The unsigned part of the subject sequence of `strtod`: `inf`/`infinity`,
`nan`, a hexadecimal or a decimal floating-point text. -/
def unsignedFloat (s : List Char) : FloatVal :=
  if startsWithWord ['i', 'n', 'f'] s then .infinite false
  else if startsWithWord ['n', 'a', 'n'] s then .nan
  else
    match s with
    | c0 :: cx :: r =>
      if c0 = '0' ∧ tolower cx = 'x' then
        match hexFloat r with
        | some v => v
        | none => decimalFloat s
      else decimalFloat s
    | _ => decimalFloat s

/-- The C function `atof` (`strtod(nptr, NULL)`), on the characters of the
string before its NUL: leading white space is skipped, an optional sign and
the longest initial text of floating-point form are converted, whatever
follows is ignored; when no conversion can be performed the result is zero. -/
def atof (nptr : List Char) : FloatVal :=
  let signed := splitSign (nptr.dropWhile isspace)
  if signed.1 then (unsignedFloat signed.2).neg else unsignedFloat signed.2

/-! ## C library: `strtok` -/

/-- The character stored at offset `i` of a buffer; at and past the end of the
list lies the terminating NUL. -/
def charAt (buf : List Char) (i : Nat) : Char := buf.getD i NUL

/-- The C string that starts at offset `p` of a buffer: the characters up to
the first NUL. -/
def cstr (buf : List Char) (p : Nat) : List Char := (buf.drop p).takeWhile (fun c => c != NUL)

/-- The C function `strspn` on the memory `s`: length of the longest initial
segment made of characters of `accept`. -/
def strspn : List Char → List Char → Nat
  | [], _ => 0
  | c :: r, accept => if c != NUL && accept.contains c then strspn r accept + 1 else 0

/-- The C function `strcspn` on the memory `s`: length of the longest initial
segment free of NUL and of the characters of `reject`. -/
def strcspn : List Char → List Char → Nat
  | [], _ => 0
  | c :: r, reject => if c == NUL || reject.contains c then 0 else strcspn r reject + 1

/-- What a call of `strtok` leaves behind: the returned pointer (`none` is the
null pointer), the buffer, in which the delimiter that ended the token has
been overwritten with NUL, and the position saved for the next call. -/
structure StrtokResult where
  token : Option Nat
  buf : List Char
  save : Nat
  deriving DecidableEq

/-- The C function `strtok`, scanning the buffer `buf` from offset `start`:
`start` is the string passed by the caller on a first call and the saved
position on a call with a null first argument. -/
def strtok (buf : List Char) (start : Nat) (delim : List Char) : StrtokResult :=
  let s := start + strspn (buf.drop start) delim
  if charAt buf s = NUL then ⟨none, buf, s⟩
  else
    let e := s + strcspn (buf.drop s) delim
    if charAt buf e = NUL then ⟨some s, buf, e⟩
    else ⟨some s, buf.set e NUL, e + 1⟩

/-! ## `ParseLine` -/

/-- The delimiter string `" \n"` of both `strtok` calls. -/
def delimiters : List Char := [' ', '\n']

/-- The function `ParseLine(doubles, ints, pline)`: the two vectors after the call.
The argument `pline` is the content of the line buffer from its start up to the terminating NUL
written by `fgets`. -/
def ParseLine (doubles : List FloatVal) (ints : List Int) (pline : List Char) :
    List FloatVal × List Int :=
  let first := strtok pline 0 delimiters
  match first.token with
  | none => (doubles, ints)
  | some pDouble =>
    let d := atof (cstr first.buf pDouble)
    let second := strtok first.buf first.save delimiters
    match second.token with
    | none => (doubles, ints)
    | some pInt =>
      if pInt ≠ pDouble then
        let i := atoi (cstr second.buf pInt)
        (doubles ++ [d], ints ++ [i])
      else (doubles, ints)

/-! ## C library: `fgets` -/

/-- The characters that `fgets` stores when it may store up to `limit` of them,
and the unread rest of the stream: reading stops after a newline, which is
stored, at the end of the stream, or when `limit` characters are stored. -/
def fgetsRead : Nat → List Char → List Char × List Char
  | 0, s => ([], s)
  | _ + 1, [] => ([], [])
  | k + 1, c :: r =>
    if c = '\n' then ([c], r)
    else (c :: (fgetsRead k r).1, (fgetsRead k r).2)

/-- The C function `fgets(buf, n, fp)` on the unread part `stream` of the file:
`none` is the null pointer, returned at the end of the file when no character
could be read; otherwise the characters stored in the buffer before the
terminating NUL (at most `n - 1`) and the unread rest. -/
def fgets (n : Nat) (stream : List Char) : Option (List Char × List Char) :=
  if stream = [] then none else some (fgetsRead (n - 1) stream)

/-! ## `ReadFileFgets` -/

/-- Size of the line buffer, `sizeof(pLine)` for `char pLine[1024]`. -/
def lineBufferSize : Nat := 1024

/-- The variables of the read loop of `ReadFileFgets`: the unread rest of the
file behind `fp`, the vectors `doubles` and `ints`, the counter `lines`.
`passes` is a ghost counter of the executions of the loop body. -/
structure LoopState where
  fp : List Char
  doubles : List FloatVal
  ints : List Int
  lines : Int
  passes : Nat
  deriving DecidableEq

/-- The state in which the loop is entered on a file with the given content. -/
def initialState (content : List Char) : LoopState := ⟨content, [], [], 0, 0⟩

/-- One evaluation of the loop condition `fgets(pLine, sizeof(pLine), fp) !=
nullptr` and, when it holds, of the loop body `lines++; ParseLine(doubles,
ints, pLine);`. `none` means that the loop is left. -/
def loopStep (s : LoopState) : Option LoopState :=
  match fgets lineBufferSize s.fp with
  | none => none
  | some (pLine, rest) =>
    some ⟨rest, (ParseLine s.doubles s.ints pLine).1, (ParseLine s.doubles s.ints pLine).2,
      wrapInt32 (s.lines + 1), s.passes + 1⟩

/-- The state after `n` iterations of the read loop, or the state in which the
loop was left when it ends earlier. -/
def readLoop : Nat → LoopState → LoopState
  | 0, s => s
  | n + 1, s =>
    match loopStep s with
    | none => s
    | some s' => readLoop n s'

/-- The read pass of `ReadFileFgets`: the state in which the loop is left.
Every iteration consumes at least one character, so `content.length`
iterations are enough (`readPass_fp`). -/
def readPass (content : List Char) : LoopState :=
  readLoop content.length (initialState content)

/-- The arguments of the final `printf`: `MB`, `ms.count() / 1000.0f`,
`(float)MB / (ms.count() / 1000L)` and `lines`. -/
structure Report where
  MB : Int
  seconds : FloatVal
  throughput : FloatVal
  lines : Int
  deriving DecidableEq

/-- What a call of `printf` writes to standard output: a text, or the report
line `C++ fgets ... MB in ...s, ... MB/s (... lines)` with its arguments. -/
inductive Output where
  | text (s : String)
  | report (r : Report)
  deriving DecidableEq

/-- A run of `ReadFileFgets`: the outputs in order, the numbers of calls of
`fgets` and of `ParseLine` (ghost counters), and the vectors and the line
counter at the end (empty and 0 in a run that returns before declaring them). -/
structure Run where
  output : List Output
  fgetsCalls : Nat
  parseLineCalls : Nat
  doubles : List FloatVal
  ints : List Int
  lines : Int
  deriving DecidableEq

/-- The variable `MB = filesize(fileName) / (1024 * 1024L)`: division of
`long long` values, truncating toward zero. -/
def MB (filesize : Int) : Int := Int.tdiv filesize (1024 * 1024)

/-- The divisor of the throughput division, `ms.count() / 1000L`: division of
`long long` values, truncating toward zero. -/
def throughputDivisor (ms : Int) : Int := Int.tdiv ms 1000

/-- The throughput argument `(float)MB / (ms.count() / 1000L)`. -/
def throughput (MB ms : Int) : FloatVal := floatDiv (MB : ℚ) (throughputDivisor ms : ℚ)

/-- The elapsed-time argument `ms.count() / 1000.0f`. -/
def elapsedSeconds (ms : Int) : FloatVal := floatDiv (ms : ℚ) 1000

/-- The function `ReadFileFgets(fileName)`. The environment enters as parameters:
`file` is what `fopen(fileName, "r")` gives, `none` for a null pointer and
otherwise the characters of the file; `filesize` is the value returned by
`filesize(fileName)` (the size in bytes, -1 when the `ifstream` cannot be
opened); `ms` is `sw.Stop().count()`, the elapsed milliseconds. The function
is total: every run returns. -/
def ReadFileFgets (fileName : String) (file : Option (List Char)) (filesize ms : Int) :
    Run :=
  match file with
  | none =>
    { output := [Output.text ("\nCould not open file " ++ fileName)]
      fgetsCalls := 0
      parseLineCalls := 0
      doubles := []
      ints := []
      lines := 0 }
  | some content =>
    let s := readPass content
    { output := [Output.report
        ⟨MB filesize, elapsedSeconds ms, throughput (MB filesize) ms, s.lines⟩]
      fgetsCalls := s.passes + 1
      parseLineCalls := s.passes
      doubles := s.doubles
      ints := s.ints
      lines := s.lines }

/-! ## Lines of a file, in the words of the specification -/

/-- Splitting into lines; `cur` is the line in progress. -/
def linesGo (cur : List Char) : List Char → List (List Char)
  | [] => if cur = [] then [] else [cur]
  | c :: r => if c = '\n' then (cur ++ [c]) :: linesGo [] r else linesGo (cur ++ [c]) r

/-- The lines of a file: "a line = bytes up to and including a newline, or up
to end-of-file". -/
def splitLines (content : List Char) : List (List Char) := linesGo [] content

/-- The strings returned by the first `n` calls of `fgets` in the read loop
(fewer when the file ends earlier). -/
def fgetsChunks : Nat → List Char → List (List Char)
  | 0, _ => []
  | n + 1, s =>
    match fgets lineBufferSize s with
    | none => []
    | some (pLine, rest) => pLine :: fgetsChunks n rest

/-! ## Tokens of a line -/

/-- Splitting into maximal runs of characters that are not separators, `sep`
telling the separators; `cur` is the run in progress. -/
def tokensGo (sep : Char → Bool) (cur : List Char) : List Char → List (List Char)
  | [] => if cur = [] then [] else [cur]
  | c :: r =>
    if sep c then
      if cur = [] then tokensGo sep [] r else cur :: tokensGo sep [] r
    else tokensGo sep (cur ++ [c]) r

/-- The tokens of a line in the words of the specification: "a maximal run of
non-whitespace characters", white space being what `isspace` accepts. -/
def whitespaceTokens (line : List Char) : List (List Char) := tokensGo isspace [] line

/-- The two characters that `ParseLine` treats as separators, those of its
delimiter string: the space and the newline character. -/
def isSeparator (c : Char) : Bool := c = ' ' || c = '\n'

/-- The tokens of a line when only space and newline separate them: the
maximal runs of characters other than space and newline, in order. -/
def tokens (line : List Char) : List (List Char) := tokensGo isSeparator [] line

/-- A delimiter character of `strtok`: a character of `delim` other than NUL. -/
def isSepChar (delim : List Char) (c : Char) : Bool := c != NUL && delim.contains c

/-- A token character of `strtok`: neither NUL nor a character of `delim`. -/
def isTokChar (delim : List Char) (c : Char) : Bool := !(c == NUL || delim.contains c)

/-- The sample that the tokens of a line give: the first token converted with
`atof` and the second with `atoi`; no sample with fewer than two tokens. -/
def sampleOfTokens : List (List Char) → Option (FloatVal × Int)
  | t1 :: t2 :: _ => some (atof t1, atoi t2)
  | _ => none

/-- Appending a sample, when there is one, to the two sequences. -/
def appendSample (doubles : List FloatVal) (ints : List Int) :
    Option (FloatVal × Int) → List FloatVal × List Int
  | some (d, i) => (doubles ++ [d], ints ++ [i])
  | none => (doubles, ints)

/-- The samples of a list of lines, in order: one for each line with at least
two tokens separated by space or newline. -/
def samples (ls : List (List Char)) : List (FloatVal × Int) :=
  ls.filterMap (fun l => sampleOfTokens (tokens l))

/-! ## Notions of the specification used in the claims -/

/-- The number of lines of a file that contain at least two tokens in the words
of the specification, "whitespace-separated tokens". -/
def linesWithTwoWhitespaceTokens (content : List Char) : Nat :=
  ((splitLines content).filter (fun l => decide (2 ≤ (whitespaceTokens l).length))).length

/-- The samples of a list of lines when the tokens are those of the words of the
specification, separated by white space. -/
def whitespaceSamples (ls : List (List Char)) : List (FloatVal × Int) :=
  ls.filterMap (fun l => sampleOfTokens (whitespaceTokens l))

/-- The number of lines of a file that contain at least two tokens separated by
space or newline. -/
def linesWithTwoTokens (content : List Char) : Nat :=
  ((splitLines content).filter (fun l => decide (2 ≤ (tokens l).length))).length

/-- A non-empty run of decimal digits after an optional sign. -/
def validDecimalInt (t : List Char) : Bool :=
  decide ((splitSign t).2 ≠ []) && (splitSign t).2.all isdigit

/-- What may follow the mantissa of decimal floating-point text: nothing, or
`e`/`E`, an optional sign and a non-empty run of decimal digits. -/
def validExponent : List Char → Bool
  | [] => true
  | c :: r => (c = 'e' || c = 'E') && validDecimalInt r

/-- Valid decimal floating-point text: an optional sign, decimal digits with an
optional point (at least one digit), an optional exponent, and nothing else. -/
def validDecimalFloat (t : List Char) : Bool :=
  decide ((mantissaDigits isdigit (splitSign t).2).1
      ++ (mantissaDigits isdigit (splitSign t).2).2.1 ≠ [])
    && validExponent (mantissaDigits isdigit (splitSign t).2).2.2

/-- A well-formed line: exactly two tokens, separated by space or newline, the
first valid decimal floating-point text and the second valid decimal integer
text. -/
def wellFormedLine (l : List Char) : Bool :=
  match tokens l with
  | [t1, t2] => validDecimalFloat t1 && validDecimalInt t2
  | _ => false

/-- Whether `atoi` finds a number at the start of the text: after optional
white space and an optional sign comes a decimal digit. -/
def startsWithInt (t : List Char) : Bool :=
  match (splitSign (t.dropWhile isspace)).2 with
  | [] => false
  | c :: _ => isdigit c

/-- Whether `atof` finds a number at the start of the text: after optional
white space and an optional sign comes a decimal digit, a point followed by a
decimal digit, or the word `inf` or `nan` in any letter case. -/
def startsWithFloat (t : List Char) : Bool :=
  startsWithWord ['i', 'n', 'f'] (splitSign (t.dropWhile isspace)).2
  || startsWithWord ['n', 'a', 'n'] (splitSign (t.dropWhile isspace)).2
  || match (splitSign (t.dropWhile isspace)).2 with
     | [] => false
     | c :: r => isdigit c || (c = '.' && match r with
        | [] => false
        | d :: _ => isdigit d)

/-- Whether a file ends with a non-empty line that has no newline. -/
def endsUnterminated (content : List Char) : Bool :=
  match content.getLast? with
  | none => false
  | some c => c ≠ '\n'

/-- The variant of `ParseLine` that tests only `pInt != nullptr`, without the
comparison `pInt != pDouble`. -/
def ParseLineNullTestOnly (doubles : List FloatVal) (ints : List Int) (pline : List Char) :
    List FloatVal × List Int :=
  let first := strtok pline 0 delimiters
  match first.token with
  | none => (doubles, ints)
  | some pDouble =>
    let d := atof (cstr first.buf pDouble)
    let second := strtok first.buf first.save delimiters
    match second.token with
    | none => (doubles, ints)
    | some pInt =>
      let i := atoi (cstr second.buf pInt)
      (doubles ++ [d], ints ++ [i])

/-- A file of one well-formed line of 1025 characters: `1.5`, 1020 spaces,
`3` and a newline. -/
def longWellFormedLine : List Char :=
  ['1', '.', '5'] ++ List.replicate 1020 ' ' ++ ['3', '\n']

/-- A file of one line of 1027 characters with four tokens: `1 2`, 1020
spaces, `3 4` and a newline. -/
def longFourTokenLine : List Char :=
  ['1', ' ', '2'] ++ List.replicate 1020 ' ' ++ ['3', ' ', '4', '\n']

/-- A file of one line with a NUL byte after its first character. -/
def lineWithNUL : List Char := ['1', NUL, ' ', '2', '\n']

/-- A file of three lines, the second of which has no token. -/
def threeLineFile : List Char := "1.5 3\n\n2.25 7\n".toList

/-- The file of the round-trip example of the specification. -/
def roundTripFile : List Char := "1.5 3\n2.25 7\n".toList

/-- A file of one line whose two numbers are separated by a tab. -/
def tabSeparatedLine : List Char := "1.5\t3\n".toList

/-- A file of one line with one token, followed by a space and a tab. -/
def lineWithTrailingTab : List Char := "a \t\n".toList

/-- A file of 1024 letters without a newline: one line. -/
def longSingleLine : List Char := List.replicate 1024 'a'

/-! # Theorems -/

theorem strspn_append (d seps rest : List Char) (hs : ∀ c ∈ seps, isSepChar d c = true)
    (hr : isSepChar d (rest.headD NUL) = false) :
    strspn (seps ++ rest) d = seps.length := by
  induction seps with
  | nil =>
    cases rest with
    | nil => rfl
    | cons c r =>
      simp only [List.headD_cons, isSepChar] at hr
      simp only [List.nil_append, strspn, hr, List.length_nil]
      rfl
  | cons c r ih =>
    have hc := hs c (List.mem_cons_self _ _)
    simp only [isSepChar] at hc
    have h := ih (fun x hx => hs x (List.mem_cons_of_mem _ hx))
    simp only [List.cons_append, strspn, hc, if_true, List.length_cons, List.append_eq, h]

theorem strcspn_append (d tok rest : List Char) (ht : ∀ c ∈ tok, isTokChar d c = true)
    (hr : isTokChar d (rest.headD NUL) = false) :
    strcspn (tok ++ rest) d = tok.length := by
  induction tok with
  | nil =>
    cases rest with
    | nil => rfl
    | cons c r =>
      simp only [List.headD_cons, isTokChar, Bool.not_eq_false'] at hr
      simp only [List.nil_append, strcspn, hr, List.length_nil]
      rfl
  | cons c r ih =>
    have hc := ht c (List.mem_cons_self _ _)
    simp only [isTokChar, Bool.not_eq_true'] at hc
    have h := ih (fun x hx => ht x (List.mem_cons_of_mem _ hx))
    simp only [List.cons_append, strcspn, hc, List.length_cons, List.append_eq, h]
    simp

theorem charAt_append_length (a b : List Char) : charAt (a ++ b) a.length = b.headD NUL := by
  unfold charAt
  cases b with
  | nil => rw [List.getD_eq_default _ _ (by simp)]; rfl
  | cons c r => rw [List.getD_eq_getElem _ _ (by simp), List.getElem_append_right (Nat.le_refl _)]; simp

theorem set_append_length (a b : List Char) (c x : Char) :
    (a ++ c :: b).set a.length x = a ++ x :: b := by
  induction a with
  | nil => rfl
  | cons y a ih => simp only [List.cons_append, List.length_cons, List.set_cons_succ, ih]

theorem isSepChar_headD_of_NUL (d rest : List Char) (hr : rest.headD NUL = NUL) :
    isSepChar d (rest.headD NUL) = false := by
  rw [hr]; simp [isSepChar]

theorem isTokChar_headD_of_NUL (d rest : List Char) (hr : rest.headD NUL = NUL) :
    isTokChar d (rest.headD NUL) = false := by
  rw [hr]; simp [isTokChar]

theorem isSepChar_of_isTokChar (d : List Char) (c : Char) (h : isTokChar d c = true) :
    isSepChar d c = false := by
  simp only [isTokChar, Bool.not_eq_true', Bool.or_eq_false_iff] at h
  simp only [isSepChar, h.2, Bool.and_false]

theorem ne_NUL_of_isTokChar (d : List Char) (c : Char) (h : isTokChar d c = true) :
    c ≠ NUL := by
  simp only [isTokChar, Bool.not_eq_true', Bool.or_eq_false_iff, beq_eq_false_iff_ne] at h
  exact h.1

theorem ne_NUL_of_isSepChar (d : List Char) (c : Char) (h : isSepChar d c = true) :
    c ≠ NUL := by
  simp only [isSepChar, Bool.and_eq_true, bne_iff_ne] at h
  exact h.1

theorem isTokChar_of_isSepChar (d : List Char) (c : Char) (h : isSepChar d c = true) :
    isTokChar d c = false := by
  simp only [isSepChar, Bool.and_eq_true] at h
  simp only [isTokChar, h.2, Bool.or_true, Bool.not_true]

/-- First outcome of `strtok`: only delimiters before the end of the string. -/
theorem strtok_none (d pre seps rest : List Char)
    (hs : ∀ c ∈ seps, isSepChar d c = true) (hr : rest.headD NUL = NUL) :
    strtok (pre ++ (seps ++ rest)) pre.length d
      = ⟨none, pre ++ (seps ++ rest), pre.length + seps.length⟩ := by
  have h1 : strspn ((pre ++ (seps ++ rest)).drop pre.length) d = seps.length := by
    rw [List.drop_left]; exact strspn_append d seps rest hs (isSepChar_headD_of_NUL d rest hr)
  have h2 : charAt (pre ++ (seps ++ rest)) (pre.length + seps.length) = NUL := by
    rw [← List.append_assoc, ← List.length_append, charAt_append_length]; exact hr
  simp only [strtok, h1, h2, if_true]

/-- Second outcome of `strtok`: a token that extends to the end of the string. -/
theorem strtok_last (d pre seps tok rest : List Char)
    (hs : ∀ c ∈ seps, isSepChar d c = true) (hne : tok ≠ [])
    (ht : ∀ c ∈ tok, isTokChar d c = true) (hr : rest.headD NUL = NUL) :
    strtok (pre ++ (seps ++ (tok ++ rest))) pre.length d
      = ⟨some (pre.length + seps.length), pre ++ (seps ++ (tok ++ rest)),
          pre.length + seps.length + tok.length⟩ := by
  obtain ⟨t, ts, rfl⟩ := List.exists_cons_of_ne_nil hne
  have ht0 := ht t (List.mem_cons_self _ _)
  have h1 : strspn ((pre ++ (seps ++ (t :: ts ++ rest))).drop pre.length) d = seps.length := by
    rw [List.drop_left]
    exact strspn_append d seps _ hs (by simpa using isSepChar_of_isTokChar d t ht0)
  have h2 : charAt (pre ++ (seps ++ (t :: ts ++ rest))) (pre.length + seps.length) ≠ NUL := by
    rw [← List.append_assoc, ← List.length_append, charAt_append_length]
    simpa using ne_NUL_of_isTokChar d t ht0
  have h3 : strcspn ((pre ++ (seps ++ (t :: ts ++ rest))).drop (pre.length + seps.length)) d
      = (t :: ts).length := by
    rw [← List.append_assoc, ← List.length_append, List.drop_left]
    exact strcspn_append d _ rest ht (isTokChar_headD_of_NUL d rest hr)
  have h4 : charAt (pre ++ (seps ++ (t :: ts ++ rest)))
      (pre.length + seps.length + (t :: ts).length) = NUL := by
    rw [← List.append_assoc, ← List.append_assoc, ← List.length_append, ← List.length_append,
      charAt_append_length]
    exact hr
  simp only [strtok, h1, h2, h3, h4, if_true, if_false]

/-- Third outcome of `strtok`: a token ended by a delimiter, which is
overwritten with NUL. -/
theorem strtok_mid (d pre seps tok rest : List Char) (c : Char)
    (hs : ∀ c ∈ seps, isSepChar d c = true) (hne : tok ≠ [])
    (ht : ∀ c ∈ tok, isTokChar d c = true) (hc : isSepChar d c = true) :
    strtok (pre ++ (seps ++ (tok ++ c :: rest))) pre.length d
      = ⟨some (pre.length + seps.length), pre ++ (seps ++ (tok ++ NUL :: rest)),
          pre.length + seps.length + tok.length + 1⟩ := by
  obtain ⟨t, ts, rfl⟩ := List.exists_cons_of_ne_nil hne
  have ht0 := ht t (List.mem_cons_self _ _)
  have h1 : strspn ((pre ++ (seps ++ (t :: ts ++ c :: rest))).drop pre.length) d
      = seps.length := by
    rw [List.drop_left]
    exact strspn_append d seps _ hs (by simpa using isSepChar_of_isTokChar d t ht0)
  have h2 : charAt (pre ++ (seps ++ (t :: ts ++ c :: rest))) (pre.length + seps.length)
      ≠ NUL := by
    rw [← List.append_assoc, ← List.length_append, charAt_append_length]
    simpa using ne_NUL_of_isTokChar d t ht0
  have h3 : strcspn ((pre ++ (seps ++ (t :: ts ++ c :: rest))).drop
      (pre.length + seps.length)) d = (t :: ts).length := by
    rw [← List.append_assoc, ← List.length_append, List.drop_left]
    exact strcspn_append d _ _ ht (by simpa using isTokChar_of_isSepChar d c hc)
  have h4 : charAt (pre ++ (seps ++ (t :: ts ++ c :: rest)))
      (pre.length + seps.length + (t :: ts).length) ≠ NUL := by
    rw [← List.append_assoc, ← List.append_assoc, ← List.length_append, ← List.length_append,
      charAt_append_length]
    simpa using ne_NUL_of_isSepChar d c hc
  have h5 : (pre ++ (seps ++ (t :: ts ++ c :: rest))).set
      (pre.length + seps.length + (t :: ts).length) NUL
      = pre ++ (seps ++ (t :: ts ++ NUL :: rest)) := by
    rw [← List.append_assoc, ← List.append_assoc, ← List.length_append, ← List.length_append,
      set_append_length]
    simp only [List.append_assoc]
  simp only [strtok, h1, h2, h3, h4, h5, if_true, if_false]

/-- Every memory splits into a longest initial segment whose characters
satisfy `p` and a rest whose first character does not. -/
theorem scan (p : Char → Bool) (hp : p NUL = false) (m : List Char) :
    ∃ a b, m = a ++ b ∧ (∀ c ∈ a, p c = true) ∧ p (b.headD NUL) = false := by
  induction m with
  | nil => exact ⟨[], [], rfl, by simp, by simpa using hp⟩
  | cons c r ih =>
    by_cases hc : p c = true
    · obtain ⟨a, b, hab, ha, hb⟩ := ih
      refine ⟨c :: a, b, by rw [hab]; rfl, ?_, hb⟩
      intro x hx
      rcases List.mem_cons.mp hx with rfl | hx
      · exact hc
      · exact ha x hx
    · exact ⟨[], c :: r, rfl, by simp, by simpa using hc⟩

theorem headD_cases_of_not_sep (d rest : List Char)
    (h : isSepChar d (rest.headD NUL) = false) :
    rest.headD NUL = NUL ∨ ∃ c r, rest = c :: r ∧ isTokChar d c = true := by
  cases rest with
  | nil => left; rfl
  | cons c r =>
    by_cases hc : c = NUL
    · left; simpa using hc
    · right
      refine ⟨c, r, rfl, ?_⟩
      simp only [List.headD_cons, isSepChar, Bool.and_eq_false_iff] at h
      rcases h with h | h
      · simp [hc] at h
      · simp only [isTokChar, h, Bool.or_false, Bool.not_eq_true', beq_eq_false_iff_ne]
        exact hc

theorem headD_cases_of_not_tok (d rest : List Char)
    (h : isTokChar d (rest.headD NUL) = false) :
    rest.headD NUL = NUL ∨ ∃ c r, rest = c :: r ∧ isSepChar d c = true := by
  cases rest with
  | nil => left; rfl
  | cons c r =>
    by_cases hc : c = NUL
    · left; simpa using hc
    · right
      refine ⟨c, r, rfl, ?_⟩
      simp only [List.headD_cons, isTokChar, Bool.not_eq_false', Bool.or_eq_true,
        beq_iff_eq] at h
      rcases h with h | h
      · exact absurd h hc
      · simp only [isSepChar, h, Bool.and_true, bne_iff_ne]
        exact hc

/-- The three outcomes of a call of `strtok` that scans the memory `m` lying
after the prefix `pre` of the buffer. -/
theorem strtok_cases (d pre m : List Char) :
    (∃ seps rest, m = seps ++ rest ∧ (∀ c ∈ seps, isSepChar d c = true)
        ∧ rest.headD NUL = NUL
        ∧ strtok (pre ++ m) pre.length d = ⟨none, pre ++ m, pre.length + seps.length⟩)
    ∨ (∃ seps tok rest, m = seps ++ (tok ++ rest) ∧ (∀ c ∈ seps, isSepChar d c = true)
        ∧ tok ≠ [] ∧ (∀ c ∈ tok, isTokChar d c = true) ∧ rest.headD NUL = NUL
        ∧ strtok (pre ++ m) pre.length d
            = ⟨some (pre.length + seps.length), pre ++ m,
                pre.length + seps.length + tok.length⟩)
    ∨ (∃ seps tok c rest, m = seps ++ (tok ++ c :: rest)
        ∧ (∀ c ∈ seps, isSepChar d c = true)
        ∧ tok ≠ [] ∧ (∀ c ∈ tok, isTokChar d c = true) ∧ isSepChar d c = true
        ∧ strtok (pre ++ m) pre.length d
            = ⟨some (pre.length + seps.length), pre ++ (seps ++ (tok ++ NUL :: rest)),
                pre.length + seps.length + tok.length + 1⟩) := by
  obtain ⟨seps, r1, hm, hs, hr1⟩ := scan (isSepChar d) (by simp [isSepChar]) m
  rcases headD_cases_of_not_sep d r1 hr1 with h0 | ⟨c, r, hcr, hc⟩
  · left
    exact ⟨seps, r1, hm, hs, h0, by rw [hm]; exact strtok_none d pre seps r1 hs h0⟩
  · right
    obtain ⟨tok, r2, hr, ht, hr2⟩ := scan (isTokChar d) (by simp [isTokChar]) r1
    have hne : tok ≠ [] := by
      intro h
      subst h
      rw [List.nil_append] at hr
      subst hr
      rw [hcr, List.headD_cons, hc] at hr2
      exact Bool.noConfusion hr2
    rcases headD_cases_of_not_tok d r2 hr2 with h0 | ⟨c2, r3, hcr2, hc2⟩
    · left
      refine ⟨seps, tok, r2, by rw [hm, hr], hs, hne, ht, h0, ?_⟩
      rw [hm, hr]; exact strtok_last d pre seps tok r2 hs hne ht h0
    · right
      refine ⟨seps, tok, c2, r3, by rw [hm, hr, hcr2], hs, hne, ht, hc2, ?_⟩
      rw [hm, hr, hcr2]; exact strtok_mid d pre seps tok r3 c2 hs hne ht hc2

/-! ### The tokens of a C string -/

theorem isSepChar_delimiters (c : Char) : isSepChar delimiters c = isSeparator c := by
  by_cases h1 : c = ' '
  · subst h1; decide
  · by_cases h2 : c = '\n'
    · subst h2; decide
    · simp [isSepChar, isSeparator, delimiters, h1, h2]

theorem isSeparator_of_isTokChar (c : Char) (h : isTokChar delimiters c = true) :
    isSeparator c = false := by
  rw [← isSepChar_delimiters]; exact isSepChar_of_isTokChar _ c h

theorem tokensGo_seps (seps x : List Char) (hs : ∀ c ∈ seps, isSeparator c = true) :
    tokensGo isSeparator [] (seps ++ x) = tokensGo isSeparator [] x := by
  induction seps with
  | nil => rfl
  | cons c r ih =>
    have hc := hs c (List.mem_cons_self _ _)
    simp only [List.cons_append, tokensGo, hc, if_true, List.append_eq]
    exact ih (fun y hy => hs y (List.mem_cons_of_mem _ hy))

theorem tokensGo_tok (tok : List Char) :
    ∀ (cur x : List Char), (∀ c ∈ tok, isSeparator c = false) →
      tokensGo isSeparator cur (tok ++ x) = tokensGo isSeparator (cur ++ tok) x := by
  induction tok with
  | nil => intro cur x _; simp
  | cons c r ih =>
    intro cur x ht
    have hc := ht c (List.mem_cons_self _ _)
    simp only [List.cons_append, tokensGo, hc, List.append_eq, Bool.false_eq_true, if_false]
    rw [ih (cur ++ [c]) x (fun y hy => ht y (List.mem_cons_of_mem _ hy))]
    simp

theorem tokensGo_end (cur : List Char) (h : cur ≠ []) : tokensGo isSeparator cur [] = [cur] := by
  simp [tokensGo, h]

theorem tokensGo_sep (cur x : List Char) (c : Char) (h : cur ≠ [])
    (hc : isSeparator c = true) : tokensGo isSeparator cur (c :: x) = cur :: tokensGo isSeparator [] x := by
  simp [tokensGo, h, hc]

theorem cstr_zero (m : List Char) : cstr m 0 = m.takeWhile (fun c => c != NUL) := rfl

theorem cstr_append_length (pre m : List Char) : cstr (pre ++ m) pre.length = cstr m 0 := by
  simp [cstr]

theorem cstr_of_headD (m : List Char) (h : m.headD NUL = NUL) : cstr m 0 = [] := by
  cases m with
  | nil => rfl
  | cons c r =>
    simp only [List.headD_cons] at h
    simp [cstr, h]

theorem cstr_append (a m : List Char) (ha : ∀ c ∈ a, c ≠ NUL) :
    cstr (a ++ m) 0 = a ++ cstr m 0 := by
  simp only [cstr, List.drop_zero]
  rw [List.takeWhile_append_of_pos]
  intro c hc
  simpa using ha c hc

theorem cstr_cons (c : Char) (m : List Char) (hc : c ≠ NUL) :
    cstr (c :: m) 0 = c :: cstr m 0 := cstr_append [c] m (by simpa using hc)

theorem cstr_NUL_cons (m : List Char) : cstr (NUL :: m) 0 = [] :=
  cstr_of_headD _ rfl

/-- Tokens of a string that holds delimiters only. -/
theorem tokens_cstr_none (seps rest : List Char)
    (hs : ∀ c ∈ seps, isSepChar delimiters c = true) (hr : rest.headD NUL = NUL) :
    tokens (cstr (seps ++ rest) 0) = [] := by
  rw [cstr_append seps rest (fun c hc => ne_NUL_of_isSepChar _ c (hs c hc)),
    cstr_of_headD rest hr, tokens,
    tokensGo_seps seps [] (fun c hc => by rw [← isSepChar_delimiters]; exact hs c hc)]
  rfl

/-- Tokens of a string whose only token extends to its end. -/
theorem tokens_cstr_last (seps tok rest : List Char)
    (hs : ∀ c ∈ seps, isSepChar delimiters c = true) (hne : tok ≠ [])
    (ht : ∀ c ∈ tok, isTokChar delimiters c = true) (hr : rest.headD NUL = NUL) :
    tokens (cstr (seps ++ (tok ++ rest)) 0) = [tok] := by
  rw [cstr_append seps _ (fun c hc => ne_NUL_of_isSepChar _ c (hs c hc)),
    cstr_append tok _ (fun c hc => ne_NUL_of_isTokChar _ c (ht c hc)),
    cstr_of_headD rest hr, tokens,
    tokensGo_seps seps _ (fun c hc => by rw [← isSepChar_delimiters]; exact hs c hc),
    tokensGo_tok tok [] [] (fun c hc => isSeparator_of_isTokChar c (ht c hc)),
    List.nil_append, tokensGo_end tok hne]

/-- Tokens of a string whose first token is followed by a delimiter. -/
theorem tokens_cstr_mid (seps tok rest : List Char) (c : Char)
    (hs : ∀ c ∈ seps, isSepChar delimiters c = true) (hne : tok ≠ [])
    (ht : ∀ c ∈ tok, isTokChar delimiters c = true) (hc : isSepChar delimiters c = true) :
    tokens (cstr (seps ++ (tok ++ c :: rest)) 0) = tok :: tokens (cstr rest 0) := by
  rw [cstr_append seps _ (fun c hc => ne_NUL_of_isSepChar _ c (hs c hc)),
    cstr_append tok _ (fun c hc => ne_NUL_of_isTokChar _ c (ht c hc)),
    cstr_cons c rest (ne_NUL_of_isSepChar _ c hc), tokens,
    tokensGo_seps seps _ (fun c hc => by rw [← isSepChar_delimiters]; exact hs c hc),
    tokensGo_tok tok [] _ (fun c hc => isSeparator_of_isTokChar c (ht c hc)),
    List.nil_append, tokensGo_sep tok _ c hne (by rw [← isSepChar_delimiters]; exact hc)]
  rfl

theorem cstr_token (pre tok rest : List Char) (ht : ∀ c ∈ tok, isTokChar delimiters c = true)
    (hr : rest.headD NUL = NUL) : cstr (pre ++ (tok ++ rest)) pre.length = tok := by
  rw [cstr_append_length, cstr_append tok _ (fun c hc => ne_NUL_of_isTokChar _ c (ht c hc)),
    cstr_of_headD rest hr, List.append_nil]

/-- The two `strtok` calls of `ParseLine` against the tokens of the line: the
pointers returned, the strings they point to, and their order. -/
theorem strtok_pair (m : List Char) :
    match tokens (cstr m 0) with
    | [] => (strtok m 0 delimiters).token = none
    | [t1] => ∃ p, (strtok m 0 delimiters).token = some p
        ∧ cstr (strtok m 0 delimiters).buf p = t1
        ∧ (strtok (strtok m 0 delimiters).buf (strtok m 0 delimiters).save delimiters).token
            = none
    | t1 :: t2 :: _ => ∃ p q, (strtok m 0 delimiters).token = some p
        ∧ cstr (strtok m 0 delimiters).buf p = t1
        ∧ (strtok (strtok m 0 delimiters).buf (strtok m 0 delimiters).save delimiters).token
            = some q
        ∧ p < q
        ∧ cstr (strtok (strtok m 0 delimiters).buf (strtok m 0 delimiters).save
            delimiters).buf q = t2 := by
  rcases strtok_cases delimiters [] m with
    ⟨seps, rest, hm, hs, hr, h1⟩ | ⟨seps, tok, rest, hm, hs, hne, ht, hr, h1⟩
      | ⟨seps, tok, c, rest, hm, hs, hne, ht, hc, h1⟩
  · simp only [List.nil_append, List.length_nil, Nat.zero_add] at h1
    rw [h1, hm, tokens_cstr_none seps rest hs hr]
  · simp only [List.nil_append, List.length_nil, Nat.zero_add] at h1
    have h2 := strtok_none delimiters (seps ++ tok) [] rest (by simp) hr
    simp only [List.nil_append, List.append_assoc, List.length_append, List.length_nil,
      Nat.add_zero] at h2
    rw [h1]
    simp only
    rw [hm, tokens_cstr_last seps tok rest hs hne ht hr, h2]
    exact ⟨seps.length, rfl, cstr_token seps tok rest ht hr, rfl⟩
  · simp only [List.nil_append, List.length_nil, Nat.zero_add] at h1
    rw [h1]
    simp only
    have hp : cstr (seps ++ (tok ++ NUL :: rest)) seps.length = tok :=
      cstr_token seps tok (NUL :: rest) ht rfl
    have hbuf : seps ++ (tok ++ NUL :: rest) = (seps ++ (tok ++ [NUL])) ++ rest := by simp
    have hlen : seps.length + tok.length + 1 = (seps ++ (tok ++ [NUL])).length := by
      simp only [List.length_append, List.length_singleton]; omega
    rw [hm, tokens_cstr_mid seps tok rest c hs hne ht hc]
    rcases strtok_cases delimiters (seps ++ (tok ++ [NUL])) rest with
      ⟨seps2, rest2, hm2, hs2, hr2, h2⟩ | ⟨seps2, tok2, rest2, hm2, hs2, hne2, ht2, hr2, h2⟩
        | ⟨seps2, tok2, c2, rest2, hm2, hs2, hne2, ht2, hc2, h2⟩
    · subst hm2
      rw [hlen, hbuf, h2, ← hbuf, tokens_cstr_none seps2 rest2 hs2 hr2]
      exact ⟨seps.length, rfl, hp, rfl⟩
    · subst hm2
      rw [hlen, hbuf, h2, ← hbuf, tokens_cstr_last seps2 tok2 rest2 hs2 hne2 ht2 hr2]
      refine ⟨seps.length, _, rfl, hp, rfl, ?_, ?_⟩
      · simp only [List.length_append, List.length_singleton]; omega
      · have h3 := cstr_token ((seps ++ (tok ++ [NUL])) ++ seps2) tok2 rest2 ht2 hr2
        have e1 : (seps ++ (tok ++ [NUL])) ++ seps2 ++ (tok2 ++ rest2)
            = seps ++ (tok ++ NUL :: (seps2 ++ (tok2 ++ rest2))) := by simp
        rw [e1, List.length_append] at h3
        exact h3
    · subst hm2
      rw [hlen, hbuf, h2, tokens_cstr_mid seps2 tok2 rest2 c2 hs2 hne2 ht2 hc2]
      refine ⟨seps.length, _, rfl, by rw [← hbuf]; exact hp, rfl, ?_, ?_⟩
      · simp only [List.length_append, List.length_singleton]; omega
      · have h3 := cstr_token ((seps ++ (tok ++ [NUL])) ++ seps2) tok2 (NUL :: rest2) ht2 rfl
        have e1 : (seps ++ (tok ++ [NUL])) ++ seps2 ++ (tok2 ++ NUL :: rest2)
            = seps ++ (tok ++ [NUL]) ++ (seps2 ++ (tok2 ++ NUL :: rest2)) := by simp
        rw [e1, List.length_append] at h3
        exact h3

/-- The function `ParseLine` appends the sample given by the first two tokens of the line,
and nothing when the line has fewer than two tokens. -/
theorem ParseLine_eq (doubles : List FloatVal) (ints : List Int) (m : List Char) :
    ParseLine doubles ints m
      = appendSample doubles ints (sampleOfTokens (tokens (cstr m 0))) := by
  have h := strtok_pair m
  unfold ParseLine
  match hk : tokens (cstr m 0) with
  | [] =>
    rw [hk] at h
    simp only at h
    simp only [h, sampleOfTokens, appendSample]
  | [t1] =>
    rw [hk] at h
    obtain ⟨p, h1, _, h2⟩ := h
    simp only [h1, h2, sampleOfTokens, appendSample]
  | t1 :: t2 :: ts =>
    rw [hk] at h
    obtain ⟨p, q, h1, h2, h3, h4, h5⟩ := h
    have hqp : q ≠ p := by omega
    simp only [h1, h2, h3, h5, sampleOfTokens, appendSample, ne_eq, hqp, not_false_eq_true,
      if_true]

/-! ### The read loop -/

theorem fgetsRead_nil (k : Nat) : fgetsRead k [] = ([], []) := by
  cases k <;> rfl

theorem fgetsRead_append (k : Nat) (s : List Char) :
    (fgetsRead k s).1 ++ (fgetsRead k s).2 = s := by
  induction s generalizing k with
  | nil => rw [fgetsRead_nil]; rfl
  | cons c r ih =>
    cases k with
    | zero => rfl
    | succ k =>
      by_cases hc : c = '\n'
      · simp [fgetsRead, hc]
      · simp [fgetsRead, hc, ih k]

theorem fgetsRead_progress (k : Nat) (s : List Char) (hs : s ≠ []) :
    (fgetsRead (k + 1) s).2.length < s.length := by
  obtain ⟨c, r, rfl⟩ := List.exists_cons_of_ne_nil hs
  have h := congrArg List.length (fgetsRead_append k r)
  rw [List.length_append] at h
  by_cases hc : c = '\n'
  · simp [fgetsRead, hc]
  · simp only [fgetsRead, hc, if_false, List.length_cons]
    omega

theorem fgets_nil (n : Nat) : fgets n [] = none := rfl

theorem fgets_of_ne_nil (s : List Char) (hs : s ≠ []) :
    fgets lineBufferSize s = some ((fgetsRead 1023 s).1, (fgetsRead 1023 s).2) := by
  simp only [fgets, hs, if_false]
  rfl

theorem loopStep_of_nil (s : LoopState) (h : s.fp = []) : loopStep s = none := by
  simp only [loopStep, h, fgets_nil]

theorem loopStep_of_ne_nil (s : LoopState) (h : s.fp ≠ []) :
    loopStep s = some ⟨(fgetsRead 1023 s.fp).2,
      (ParseLine s.doubles s.ints (fgetsRead 1023 s.fp).1).1,
      (ParseLine s.doubles s.ints (fgetsRead 1023 s.fp).1).2,
      wrapInt32 (s.lines + 1), s.passes + 1⟩ := by
  simp only [loopStep, fgets_of_ne_nil s.fp h]

theorem fgetsChunks_of_nil (n : Nat) : fgetsChunks n [] = [] := by
  cases n <;> rfl

theorem fgetsChunks_of_ne_nil (n : Nat) (s : List Char) (h : s ≠ []) :
    fgetsChunks (n + 1) s = (fgetsRead 1023 s).1 :: fgetsChunks n (fgetsRead 1023 s).2 := by
  simp only [fgetsChunks, fgets_of_ne_nil s h]

theorem wrapInt32_add_one (k : Int) : wrapInt32 (wrapInt32 k + 1) = wrapInt32 (k + 1) := by
  unfold wrapInt32; omega

theorem wrapInt32_of_range (k : Int) (h0 : -2147483648 ≤ k) (h1 : k < 2147483648) :
    wrapInt32 k = k := by
  unfold wrapInt32; omega

theorem appendSample_fst (ds : List FloatVal) (is : List Int) (o : Option (FloatVal × Int)) :
    (appendSample ds is o).1 = ds ++ (o.toList.map Prod.fst) := by
  cases o with
  | none => simp [appendSample]
  | some x => cases x; simp [appendSample]

theorem appendSample_snd (ds : List FloatVal) (is : List Int) (o : Option (FloatVal × Int)) :
    (appendSample ds is o).2 = is ++ (o.toList.map Prod.snd) := by
  cases o with
  | none => simp [appendSample]
  | some x => cases x; simp [appendSample]

theorem samples_cons (l : List Char) (ls : List (List Char)) :
    samples (l :: ls) = (sampleOfTokens (tokens l)).toList ++ samples ls := by
  unfold samples
  cases h : sampleOfTokens (tokens l) with
  | none => simp [List.filterMap_cons, h]
  | some x => simp [List.filterMap_cons, h]

/-- The state after `n` iterations in terms of the strings read by `fgets`. -/
theorem readLoop_eq (n : Nat) : ∀ (s : LoopState) (k : Int), s.lines = wrapInt32 k →
    (readLoop n s).doubles
        = s.doubles ++ (samples ((fgetsChunks n s.fp).map (fun l => cstr l 0))).map Prod.fst
    ∧ (readLoop n s).ints
        = s.ints ++ (samples ((fgetsChunks n s.fp).map (fun l => cstr l 0))).map Prod.snd
    ∧ (readLoop n s).lines = wrapInt32 (k + (fgetsChunks n s.fp).length)
    ∧ (readLoop n s).passes = s.passes + (fgetsChunks n s.fp).length := by
  induction n with
  | zero => intro s k hk; simp [readLoop, fgetsChunks, samples, hk]
  | succ n ih =>
    intro s k hk
    by_cases h : s.fp = []
    · simp [readLoop, loopStep_of_nil s h, h, fgetsChunks_of_nil, samples, hk]
    · obtain ⟨h1, h2, h3, h4⟩ := ih ⟨(fgetsRead 1023 s.fp).2,
        (ParseLine s.doubles s.ints (fgetsRead 1023 s.fp).1).1,
        (ParseLine s.doubles s.ints (fgetsRead 1023 s.fp).1).2,
        wrapInt32 (s.lines + 1), s.passes + 1⟩ (k + 1)
        (by simp only [hk, wrapInt32_add_one])
      simp only [readLoop, loopStep_of_ne_nil s h, fgetsChunks_of_ne_nil n s.fp h,
        List.map_cons, samples_cons, List.length_cons]
      simp only at h1 h2 h3 h4
      rw [h1, h2, h3, h4, ParseLine_eq, appendSample_fst, appendSample_snd]
      refine ⟨by simp, by simp, ?_, by omega⟩
      congr 1
      push_cast
      omega

theorem readLoop_fp (n : Nat) : ∀ (s : LoopState), s.fp.length ≤ n → (readLoop n s).fp = [] := by
  induction n with
  | zero =>
    intro s hs
    exact List.eq_nil_of_length_eq_zero (Nat.le_zero.mp hs)
  | succ n ih =>
    intro s hs
    by_cases h : s.fp = []
    · simp only [readLoop, loopStep_of_nil s h, h]
    · simp only [readLoop, loopStep_of_ne_nil s h]
      apply ih
      have : (fgetsRead 1023 s.fp).2.length < s.fp.length := fgetsRead_progress 1022 s.fp h
      simp only
      omega

/-- The read pass ends because the file is exhausted: `content.length`
iterations are enough for the loop condition to fail. -/
theorem readPass_fp (content : List Char) :
    (readPass content).fp = [] ∧ loopStep (readPass content) = none := by
  have h := readLoop_fp content.length (initialState content) (Nat.le_refl _)
  exact ⟨h, loopStep_of_nil _ h⟩

/-! ### Lines of the specification against the strings read by `fgets` -/

theorem linesGo_head_length (r : List Char) : ∀ (cur : List Char) (c : Char),
    ∃ l ∈ linesGo cur (c :: r), cur.length + 1 ≤ l.length := by
  induction r with
  | nil =>
    intro cur c
    by_cases hc : c = '\n'
    · exact ⟨cur ++ [c], by simp [linesGo, hc], by simp⟩
    · exact ⟨cur ++ [c], by simp [linesGo, hc], by simp⟩
  | cons d r ih =>
    intro cur c
    by_cases hc : c = '\n'
    · exact ⟨cur ++ [c], by simp [linesGo, hc], by simp⟩
    · obtain ⟨l, hl, hlen⟩ := ih (cur ++ [c]) d
      refine ⟨l, ?_, ?_⟩
      · rw [linesGo, if_neg hc]; exact hl
      · simp only [List.length_append, List.length_singleton] at hlen; omega

theorem linesGo_fgetsRead (s : List Char) : ∀ (k : Nat) (cur : List Char), s ≠ [] →
    (∀ l ∈ linesGo cur s, l.length ≤ cur.length + k) →
    linesGo cur s = (cur ++ (fgetsRead k s).1) :: linesGo [] (fgetsRead k s).2 := by
  induction s with
  | nil => intro k cur h; exact absurd rfl h
  | cons c r ih =>
    intro k cur _ hl
    cases k with
    | zero =>
      obtain ⟨l, hmem, hlen⟩ := linesGo_head_length r cur c
      have := hl l hmem
      omega
    | succ k =>
      by_cases hc : c = '\n'
      · simp [linesGo, fgetsRead, hc]
      · rw [linesGo, if_neg hc] at hl ⊢
        simp only [fgetsRead, if_neg hc]
        by_cases hr : r = []
        · subst hr
          simp [linesGo, fgetsRead_nil]
        · rw [ih k (cur ++ [c]) hr]
          · simp
          · intro l hmem
            have := hl l hmem
            simp only [List.length_append, List.length_singleton]
            omega

theorem fgetsChunks_eq_splitLines (n : Nat) : ∀ (s : List Char), s.length ≤ n →
    (∀ l ∈ splitLines s, l.length ≤ 1023) → fgetsChunks n s = splitLines s := by
  induction n with
  | zero =>
    intro s hs _
    rw [List.eq_nil_of_length_eq_zero (Nat.le_zero.mp hs)]
    rfl
  | succ n ih =>
    intro s hs hl
    by_cases h : s = []
    · subst h; rfl
    · have hsplit : splitLines s
          = (fgetsRead 1023 s).1 :: splitLines (fgetsRead 1023 s).2 := by
        have := linesGo_fgetsRead s 1023 [] h (by simpa using hl)
        simpa using this
      rw [fgetsChunks_of_ne_nil n s h, hsplit, ih]
      · have : (fgetsRead 1023 s).2.length < s.length := fgetsRead_progress 1022 s h
        omega
      · intro l hmem
        exact hl l (by rw [hsplit]; exact List.mem_cons_of_mem _ hmem)

theorem fgetsChunks_length_le (n : Nat) : ∀ (s : List Char), (fgetsChunks n s).length ≤ n := by
  induction n with
  | zero => intro s; simp [fgetsChunks]
  | succ n ih =>
    intro s
    by_cases h : s = []
    · subst h; simp [fgetsChunks_of_nil]
    · rw [fgetsChunks_of_ne_nil n s h, List.length_cons]
      have := ih (fgetsRead 1023 s).2
      omega

theorem mem_linesGo (s : List Char) : ∀ (cur l : List Char), l ∈ linesGo cur s →
    ∀ c ∈ l, c ∈ cur ∨ c ∈ s := by
  induction s with
  | nil =>
    intro cur l hl c hc
    by_cases h : cur = []
    · simp [linesGo, h] at hl
    · simp only [linesGo, h, if_false, List.mem_singleton] at hl
      subst hl; exact Or.inl hc
  | cons d r ih =>
    intro cur l hl c hc
    by_cases hd : d = '\n'
    · rw [linesGo, if_pos hd] at hl
      rcases List.mem_cons.mp hl with rfl | hl
      · rcases List.mem_append.mp hc with h | h
        · exact Or.inl h
        · right; simp only [List.mem_singleton] at h; simp [h]
      · rcases ih [] l hl c hc with h | h
        · simp at h
        · exact Or.inr (List.mem_cons_of_mem _ h)
    · rw [linesGo, if_neg hd] at hl
      rcases ih (cur ++ [d]) l hl c hc with h | h
      · rcases List.mem_append.mp h with h | h
        · exact Or.inl h
        · right; simp only [List.mem_singleton] at h; simp [h]
      · exact Or.inr (List.mem_cons_of_mem _ h)

theorem cstr_of_no_NUL (l : List Char) (h : ∀ c ∈ l, c ≠ NUL) : cstr l 0 = l := by
  have := cstr_append l [] h
  simpa [cstr] using this

theorem map_cstr_splitLines (content : List Char) (h : ∀ c ∈ content, c ≠ NUL) :
    (splitLines content).map (fun l => cstr l 0) = splitLines content := by
  conv_rhs => rw [← List.map_id (splitLines content)]
  apply List.map_congr_left
  intro l hl
  apply cstr_of_no_NUL
  intro c hc
  rcases mem_linesGo content [] l hl c hc with h' | h'
  · simp at h'
  · exact h c h'

/-! ### Counting tokens and samples -/

theorem tokensGo_congr (sep1 sep2 : Char → Bool) (l : List Char) :
    ∀ (cur : List Char), (∀ c ∈ l, sep1 c = sep2 c) →
      tokensGo sep1 cur l = tokensGo sep2 cur l := by
  induction l with
  | nil => intro cur _; rfl
  | cons c r ih =>
    intro cur h
    have hc := h c (List.mem_cons_self _ _)
    have hr : ∀ x ∈ r, sep1 x = sep2 x := fun x hx => h x (List.mem_cons_of_mem _ hx)
    simp only [tokensGo, hc, ih [] hr, ih (cur ++ [c]) hr]

/-- On a line whose only white space is space and newline, the tokens in the
words of the specification are the tokens separated by space and newline. -/
theorem whitespaceTokens_eq_tokens (l : List Char)
    (h : ∀ c ∈ l, isspace c = isSeparator c) : whitespaceTokens l = tokens l :=
  tokensGo_congr isspace isSeparator l [] h

theorem tokensGo_length_pos (b : List Char) : ∀ (cur : List Char), cur ≠ [] →
    1 ≤ (tokensGo isSeparator cur b).length := by
  induction b with
  | nil => intro cur h; simp [tokensGo, h]
  | cons c r ih =>
    intro cur h
    by_cases hc : isSeparator c = true
    · simp [tokensGo, hc, h]
    · simp only [tokensGo, hc]
      exact ih (cur ++ [c]) (by simp)

theorem tokensGo_length_append (a b : List Char) : ∀ (cur : List Char),
    (tokensGo isSeparator cur a).length ≤ (tokensGo isSeparator cur (a ++ b)).length := by
  induction a with
  | nil =>
    intro cur
    by_cases h : cur = []
    · simp [tokensGo, h]
    · simpa [tokensGo, h] using tokensGo_length_pos b cur h
  | cons c r ih =>
    intro cur
    by_cases hc : isSeparator c = true
    · by_cases h : cur = []
      · simpa [tokensGo, hc, h] using ih []
      · simpa [tokensGo, hc, h] using ih []
    · simpa [tokensGo, hc] using ih (cur ++ [c])

/-- The string that `strtok` sees in a buffer has no more tokens than the
characters stored in the buffer. -/
theorem tokens_cstr_length_le (l : List Char) :
    (tokens (cstr l 0)).length ≤ (tokens l).length := by
  have h : cstr l 0 ++ l.dropWhile (fun c => c != NUL) = l := by
    simp [cstr]
  have := tokensGo_length_append (cstr l 0) (l.dropWhile (fun c => c != NUL)) []
  rw [h] at this
  exact this

theorem sampleOfTokens_eq_none (ts : List (List Char)) (h : ts.length < 2) :
    sampleOfTokens ts = none := by
  match ts, h with
  | [], _ => rfl
  | [_], _ => rfl
  | _ :: _ :: _, h => exact absurd h (by simp)

theorem sampleOfTokens_isSome (ts : List (List Char)) :
    (sampleOfTokens ts).isSome = decide (2 ≤ ts.length) := by
  match ts with
  | [] => rfl
  | [_] => rfl
  | _ :: _ :: _ => simp [sampleOfTokens]

theorem samples_length (ls : List (List Char)) :
    (samples ls).length = (ls.filter (fun l => decide (2 ≤ (tokens l).length))).length := by
  induction ls with
  | nil => rfl
  | cons l ls ih =>
    rw [samples_cons, List.length_append, ih, List.filter_cons]
    have h := sampleOfTokens_isSome (tokens l)
    cases hs : sampleOfTokens (tokens l) with
    | none =>
      rw [hs] at h
      simp only [Option.isSome_none] at h
      simp [← h]
    | some x =>
      rw [hs] at h
      simp only [Option.isSome_some] at h
      simp [← h]
      omega

theorem samples_length_le (ls : List (List Char)) : (samples ls).length ≤ ls.length :=
  List.length_filterMap_le _ _

theorem samples_length_lt (ls : List (List Char))
    (h : ∃ l ∈ ls, (tokens l).length < 2) : (samples ls).length < ls.length := by
  induction ls with
  | nil => simp at h
  | cons l ls ih =>
    rw [samples_cons, List.length_append, List.length_cons]
    obtain ⟨x, hx, hlt⟩ := h
    rcases List.mem_cons.mp hx with rfl | hx
    · rw [sampleOfTokens_eq_none _ hlt]
      have := samples_length_le ls
      simp only [Option.toList_none, List.length_nil]
      omega
    · have h1 := ih ⟨x, hx, hlt⟩
      have h2 : (sampleOfTokens (tokens l)).toList.length ≤ 1 := by
        cases sampleOfTokens (tokens l) <;> simp
      omega

/-! ### Conversions of text without a number at its start -/

theorem atoi_of_not_startsWithInt (t : List Char) (h : startsWithInt t = false) :
    atoi t = 0 := by
  unfold startsWithInt at h
  unfold atoi
  generalize splitSign (t.dropWhile isspace) = sg at h ⊢
  obtain ⟨neg, s⟩ := sg
  cases s with
  | nil => simp [digitsValue, INT_MAX, INT_MIN]
  | cons c r =>
    simp only at h
    simp [List.takeWhile_cons, h, digitsValue, INT_MAX, INT_MIN]

theorem decimalFloat_of_no_digit (s : List Char)
    (h : (match s with
      | [] => false
      | c :: r => isdigit c || (c = '.' && match r with
        | [] => false
        | d :: _ => isdigit d)) = false) :
    decimalFloat s = .finite 0 := by
  unfold decimalFloat mantissaDigits
  cases s with
  | nil => simp
  | cons c r =>
    simp only [Bool.or_eq_false_iff, Bool.and_eq_false_iff, decide_eq_false_iff_not] at h
    obtain ⟨h1, h2⟩ := h
    simp only [List.takeWhile_cons, List.dropWhile_cons, h1]
    by_cases hc : c = '.'
    · rcases h2 with h2 | h2
      · exact absurd hc h2
      · cases r with
        | nil => simp [hc]
        | cons d r' =>
          simp only at h2
          simp [hc, List.takeWhile_cons, h2]
    · simp [hc]

theorem atof_of_not_startsWithFloat (t : List Char) (h : startsWithFloat t = false) :
    atof t = .finite 0 := by
  unfold startsWithFloat at h
  simp only [Bool.or_eq_false_iff] at h
  obtain ⟨⟨hinf, hnan⟩, hdig⟩ := h
  have hdec := decimalFloat_of_no_digit _ hdig
  have hu : unsignedFloat (splitSign (t.dropWhile isspace)).2 = .finite 0 := by
    unfold unsignedFloat
    rw [hinf, hnan]
    simp only [Bool.false_eq_true, if_false]
    cases hs : (splitSign (t.dropWhile isspace)).2 with
    | nil => rw [hs] at hdec; exact hdec
    | cons c0 r =>
      rw [hs] at hdec hdig
      cases r with
      | nil => exact hdec
      | cons cx r' =>
        simp only
        have h0 : ¬ (c0 = '0' ∧ tolower cx = 'x') := by
          rintro ⟨rfl, _⟩
          simp [isdigit] at hdig
        rw [if_neg h0]
        exact hdec
  unfold atof
  simp only [hu]
  simp [FloatVal.neg]

/-! ### Counting the lines of a file -/

theorem linesGo_length (s : List Char) : ∀ (cur : List Char),
    (linesGo cur s).length = s.count '\n'
      + (if s = [] then (if cur = [] then 0 else 1)
         else if endsUnterminated s = true then 1 else 0) := by
  induction s with
  | nil =>
    intro cur
    by_cases h : cur = [] <;> simp [linesGo, h]
  | cons c r ih =>
    intro cur
    by_cases hc : c = '\n'
    · subst hc
      rw [linesGo, if_pos rfl, List.length_cons, ih []]
      cases r with
      | nil => simp [endsUnterminated]
      | cons d r' => simp [endsUnterminated, List.getLast?_cons_cons]; omega
    · rw [linesGo, if_neg hc, ih (cur ++ [c])]
      have hcount : List.count '\n' (c :: r) = List.count '\n' r := by
        rw [List.count_cons]
        simp [hc]
      rw [hcount]
      cases r with
      | nil => simp [endsUnterminated, hc]
      | cons d r' => simp [endsUnterminated, List.getLast?_cons_cons]

/-! ### A file of newlines -/

theorem ParseLine_newline (ds : List FloatVal) (is : List Int) :
    ParseLine ds is ['\n'] = (ds, is) := by
  rw [ParseLine_eq]
  have : tokens (cstr ['\n'] 0) = [] := by decide
  rw [this]
  rfl

theorem fgetsRead_newline (k : Nat) (r : List Char) :
    fgetsRead (k + 1) ('\n' :: r) = (['\n'], r) := by
  simp [fgetsRead]

theorem readLoop_newlines (n : Nat) : ∀ (ds : List FloatVal) (is : List Int) (k : Int)
    (p : Nat), readLoop n ⟨List.replicate n '\n', ds, is, wrapInt32 k, p⟩
      = ⟨[], ds, is, wrapInt32 (k + n), p + n⟩ := by
  induction n with
  | zero => intro ds is k p; simp [readLoop]
  | succ n ih =>
    intro ds is k p
    have hne : (⟨List.replicate (n + 1) '\n', ds, is, wrapInt32 k, p⟩ : LoopState).fp ≠ [] := by
      simp [List.replicate_succ]
    rw [readLoop, loopStep_of_ne_nil _ hne]
    simp only [List.replicate_succ, fgetsRead_newline, ParseLine_newline, wrapInt32_add_one]
    rw [ih ds is (k + 1) (p + 1)]
    have e1 : k + 1 + (n : Int) = k + ((n + 1 : Nat) : Int) := by push_cast; omega
    have e2 : p + 1 + n = p + (n + 1) := by omega
    rw [e1, e2]

theorem readLoop_newlines_initial (n : Nat) :
    readLoop n (initialState (List.replicate n '\n')) = ⟨[], [], [], wrapInt32 n, n⟩ := by
  have h := readLoop_newlines n [] [] 0 0
  have e : wrapInt32 0 = 0 := by decide
  rw [e] at h
  simpa [initialState] using h

theorem splitLines_newlines (n : Nat) :
    splitLines (List.replicate n '\n') = List.replicate n ['\n'] := by
  unfold splitLines
  induction n with
  | zero => rfl
  | succ n ih => simp only [List.replicate_succ, linesGo, if_true, List.nil_append, ih]

theorem readPass_newlines (n : Nat) :
    readPass (List.replicate n '\n') = ⟨[], [], [], wrapInt32 n, n⟩ := by
  unfold readPass
  rw [List.length_replicate]
  exact readLoop_newlines_initial n

/-- Characters that lie in the line buffer behind the terminating NUL, left
there by earlier iterations, have no influence on `ParseLine`. -/
theorem ParseLine_append_NUL (doubles : List FloatVal) (ints : List Int)
    (pline stale : List Char) :
    ParseLine doubles ints (pline ++ NUL :: stale) = ParseLine doubles ints pline := by
  have h : cstr (pline ++ NUL :: stale) 0 = cstr pline 0 := by
    simp only [cstr, List.drop_zero]
    induction pline with
    | nil => simp [NUL]
    | cons c r ih =>
      by_cases hc : c = NUL
      · simp [hc]
      · simp [List.takeWhile_cons, hc, ih]
  rw [ParseLine_eq, ParseLine_eq, h]

/-! ### The read pass on files of short lines without NUL -/

theorem zip_map_fst_snd_self (l : List (FloatVal × Int)) :
    (l.map Prod.fst).zip (l.map Prod.snd) = l := by
  induction l with
  | nil => rfl
  | cons x xs ih => simp [ih]

/-- The read pass in terms of the strings read by `fgets`. -/
theorem readPass_eq (content : List Char) :
    (readPass content).doubles
        = (samples ((fgetsChunks content.length content).map (fun l => cstr l 0))).map Prod.fst
    ∧ (readPass content).ints
        = (samples ((fgetsChunks content.length content).map (fun l => cstr l 0))).map Prod.snd
    ∧ (readPass content).lines = wrapInt32 ((fgetsChunks content.length content).length : Nat)
    ∧ (readPass content).passes = (fgetsChunks content.length content).length := by
  have h := readLoop_eq content.length (initialState content) 0 rfl
  simpa [readPass, initialState] using h

/-- The read pass on a file without NUL whose lines fit the buffer, in terms
of the lines of the file. -/
theorem readPass_eq_of_short_lines (content : List Char) (hNUL : ∀ c ∈ content, c ≠ NUL)
    (hlen : ∀ l ∈ splitLines content, l.length ≤ 1023) :
    (readPass content).doubles = (samples (splitLines content)).map Prod.fst
    ∧ (readPass content).ints = (samples (splitLines content)).map Prod.snd
    ∧ (readPass content).lines = wrapInt32 ((splitLines content).length : Nat) := by
  obtain ⟨h1, h2, h3, _⟩ := readPass_eq content
  rw [fgetsChunks_eq_splitLines content.length content (Nat.le_refl _) hlen] at h1 h2 h3
  rw [map_cstr_splitLines content hNUL] at h1 h2
  exact ⟨h1, h2, h3⟩

theorem two_le_tokens_of_wellFormedLine (l : List Char) (h : wellFormedLine l = true) :
    2 ≤ (tokens l).length := by
  unfold wellFormedLine at h
  match hk : tokens l with
  | [] => rw [hk] at h; exact absurd h (by simp)
  | [_] => rw [hk] at h; exact absurd h (by simp)
  | _ :: _ :: _ => simp

/-! ## The claims -/

/-- C1, amended. For every file content without NUL byte in which every line
(the bytes up to and including a newline, or up to end-of-file) is at most 1023
bytes long, the read pass of `ReadFileFgets` runs to the end of the file and
leaves a double sequence and an int sequence whose lengths both equal the
number of lines with at least two tokens, a token being a maximal run of
characters other than space and newline; in particular such a file of N
well-formed lines yields exactly N samples. -/
theorem C1_sample_count (content : List Char) (hNUL : ∀ c ∈ content, c ≠ NUL)
    (hlen : ∀ l ∈ splitLines content, l.length ≤ 1023) :
    loopStep (readPass content) = none
    ∧ (readPass content).doubles.length = linesWithTwoTokens content
    ∧ (readPass content).ints.length = linesWithTwoTokens content
    ∧ ((∀ l ∈ splitLines content, wellFormedLine l = true) →
        (readPass content).doubles.length = (splitLines content).length
        ∧ (readPass content).ints.length = (splitLines content).length) := by
  obtain ⟨h1, h2, _⟩ := readPass_eq_of_short_lines content hNUL hlen
  have hd : (readPass content).doubles.length = linesWithTwoTokens content := by
    rw [h1, List.length_map, samples_length]; rfl
  have hi : (readPass content).ints.length = linesWithTwoTokens content := by
    rw [h2, List.length_map, samples_length]; rfl
  refine ⟨(readPass_fp content).2, hd, hi, ?_⟩
  intro hw
  have hall : linesWithTwoTokens content = (splitLines content).length := by
    unfold linesWithTwoTokens
    rw [List.filter_eq_self.mpr]
    intro l hl
    exact decide_eq_true (two_le_tokens_of_wellFormedLine l (hw l hl))
  rw [hd, hi, hall]
  exact ⟨rfl, rfl⟩

/-- C1, witness: the three-line file `1.5 3`, empty line, `2.25 7`. -/
theorem C1_sample_count_witness :
    (∀ c ∈ threeLineFile, c ≠ NUL) ∧ (∀ l ∈ splitLines threeLineFile, l.length ≤ 1023)
    ∧ (readPass threeLineFile).doubles.length = 2
    ∧ linesWithTwoTokens threeLineFile = 2
    ∧ (readPass threeLineFile).doubles.length = linesWithTwoTokens threeLineFile :=
  ⟨by decide, by decide, by decide, by decide,
    (C1_sample_count threeLineFile (by decide) (by decide)).2.1⟩

/-- C1, as stated, fails. The file `1.5`, tab, `3`, newline has one line with
two whitespace-separated tokens but yields no sample: a tab is no delimiter of
`strtok`. A file of one well-formed line of 1025 bytes (`1.5`, 1020 spaces,
`3`, newline) has one line with two tokens but yields no sample: `fgets`
delivers the line in two pieces of one token each. A file whose only line is
`1`, NUL, space, `2`, newline has one line with two tokens but yields no
sample: the string seen by `strtok` ends at the NUL. -/
theorem C1_counterexample :
    (whitespaceTokens tabSeparatedLine = [['1', '.', '5'], ['3']]
      ∧ validDecimalFloat ['1', '.', '5'] = true ∧ validDecimalInt ['3'] = true
      ∧ linesWithTwoWhitespaceTokens tabSeparatedLine = 1
      ∧ (readPass tabSeparatedLine).doubles.length = 0
      ∧ (readPass tabSeparatedLine).ints.length = 0
      ∧ (readPass tabSeparatedLine).doubles.length
          ≠ linesWithTwoWhitespaceTokens tabSeparatedLine)
    ∧ (whitespaceTokens longWellFormedLine = [['1', '.', '5'], ['3']]
      ∧ (splitLines longWellFormedLine).length = 1
      ∧ linesWithTwoWhitespaceTokens longWellFormedLine = 1
      ∧ (readPass longWellFormedLine).doubles.length = 0
      ∧ (readPass longWellFormedLine).ints.length = 0
      ∧ (readPass longWellFormedLine).doubles.length
          ≠ linesWithTwoWhitespaceTokens longWellFormedLine)
    ∧ (linesWithTwoWhitespaceTokens lineWithNUL = 1
      ∧ (readPass lineWithNUL).doubles.length = 0
      ∧ (readPass lineWithNUL).ints.length = 0
      ∧ (readPass lineWithNUL).doubles.length ≠ linesWithTwoWhitespaceTokens lineWithNUL) := by
  set_option maxRecDepth 1000000 in decide!

/-- C2, amended. For every file content without NUL byte in which every line
is at most 1023 bytes long, the double sequence produced by the read pass is,
in file order, the `atof` conversion of the first token of each line that has
at least two tokens, and the int sequence is the `atoi` conversion of the
second token of those same lines, index-aligned; the sample of a line depends
on its first two tokens only; for the input `1.5 3`, newline, `2.25 7`,
newline the double sequence is [1.5, 2.25] and the int sequence is [3, 7]. -/
theorem C2_sample_values (content : List Char) (hNUL : ∀ c ∈ content, c ≠ NUL)
    (hlen : ∀ l ∈ splitLines content, l.length ≤ 1023) :
    (readPass content).doubles = (samples (splitLines content)).map Prod.fst
    ∧ (readPass content).ints = (samples (splitLines content)).map Prod.snd
    ∧ (readPass content).doubles.zip (readPass content).ints = samples (splitLines content)
    ∧ (∀ t1 t2 rest, sampleOfTokens (t1 :: t2 :: rest) = some (atof t1, atoi t2))
    ∧ (readPass roundTripFile).doubles = [.finite (3 / 2), .finite (9 / 4)]
    ∧ (readPass roundTripFile).ints = [3, 7] := by
  obtain ⟨h1, h2, _⟩ := readPass_eq_of_short_lines content hNUL hlen
  refine ⟨h1, h2, ?_, fun _ _ _ => rfl, by decide!, by decide!⟩
  rw [h1, h2, zip_map_fst_snd_self]

/-- C2, witness: the round-trip file of the specification. -/
theorem C2_sample_values_witness :
    (∀ c ∈ roundTripFile, c ≠ NUL) ∧ (∀ l ∈ splitLines roundTripFile, l.length ≤ 1023)
    ∧ samples (splitLines roundTripFile) = [(.finite (3 / 2), 3), (.finite (9 / 4), 7)]
    ∧ (readPass roundTripFile).doubles.zip (readPass roundTripFile).ints
        = samples (splitLines roundTripFile) :=
  ⟨by decide, by decide, by decide!,
    (C2_sample_values roundTripFile (by decide) (by decide)).2.2.1⟩

/-- C2, as stated, fails. The file `1.5`, tab, `3`, newline has one line with
the two whitespace-separated tokens `1.5` and `3`, but the read pass produces
nothing. The file of one line `1 2`, 1020 spaces, `3 4`, newline (1027 bytes)
has one line, whose first two tokens are `1` and `2`, but the read pass
produces the doubles [1, 3] and the ints [2, 4]: the second piece delivered by
`fgets` is parsed as a line of its own. The file `1`, NUL, space, `2`, newline
has one line with two tokens, but the read pass produces nothing. -/
theorem C2_counterexample :
    (whitespaceSamples (splitLines tabSeparatedLine) = [(.finite (3 / 2), 3)]
      ∧ (readPass tabSeparatedLine).doubles = []
      ∧ (readPass tabSeparatedLine).ints = []
      ∧ (readPass tabSeparatedLine).doubles
          ≠ (whitespaceSamples (splitLines tabSeparatedLine)).map Prod.fst)
    ∧ (whitespaceSamples (splitLines longFourTokenLine) = [(.finite 1, 2)]
      ∧ (readPass longFourTokenLine).doubles = [.finite 1, .finite 3]
      ∧ (readPass longFourTokenLine).ints = [2, 4]
      ∧ (readPass longFourTokenLine).ints
          ≠ (whitespaceSamples (splitLines longFourTokenLine)).map Prod.snd)
    ∧ ((whitespaceSamples (splitLines lineWithNUL)).length = 1
      ∧ (readPass lineWithNUL).doubles = []
      ∧ (readPass lineWithNUL).ints = []
      ∧ (readPass lineWithNUL).doubles
          ≠ (whitespaceSamples (splitLines lineWithNUL)).map Prod.fst) := by
  set_option maxRecDepth 1000000 in decide!

/-- C3, amended. After any number n < 2^31 of iterations of the read loop of
`ReadFileFgets`, started from two empty sequences, the length of the double
sequence equals the length of the int sequence and both are less than or equal
to the lines counter; the inequality is strict as soon as one of the lines
read so far had fewer than two tokens, a token being a maximal run of
characters other than space and newline. -/
theorem C3_loop_invariant (content : List Char) (n : Nat) (hn : n < 2147483648) :
    (readLoop n (initialState content)).doubles.length
        = (readLoop n (initialState content)).ints.length
    ∧ ((readLoop n (initialState content)).doubles.length : Int)
        ≤ (readLoop n (initialState content)).lines
    ∧ ((readLoop n (initialState content)).ints.length : Int)
        ≤ (readLoop n (initialState content)).lines
    ∧ ((∃ l ∈ fgetsChunks n content, (tokens l).length < 2) →
        ((readLoop n (initialState content)).doubles.length : Int)
            < (readLoop n (initialState content)).lines
        ∧ ((readLoop n (initialState content)).ints.length : Int)
            < (readLoop n (initialState content)).lines) := by
  obtain ⟨h1, h2, h3, _⟩ := readLoop_eq n (initialState content) 0 rfl
  simp only [initialState, List.nil_append, zero_add] at h1 h2 h3
  have hle := fgetsChunks_length_le n content
  have hlines : (readLoop n (initialState content)).lines
      = ((fgetsChunks n content).length : Nat) := by
    simp only [initialState]
    rw [h3]
    apply wrapInt32_of_range <;> omega
  have hd : (readLoop n (initialState content)).doubles.length
      = (samples ((fgetsChunks n content).map (fun l => cstr l 0))).length := by
    simp only [initialState]; rw [h1, List.length_map]
  have hi : (readLoop n (initialState content)).ints.length
      = (samples ((fgetsChunks n content).map (fun l => cstr l 0))).length := by
    simp only [initialState]; rw [h2, List.length_map]
  have hs := samples_length_le ((fgetsChunks n content).map (fun l => cstr l 0))
  rw [List.length_map] at hs
  refine ⟨by rw [hd, hi], by rw [hd, hlines]; exact_mod_cast hs,
    by rw [hi, hlines]; exact_mod_cast hs, ?_⟩
  rintro ⟨l, hl, hlt⟩
  have hs2 := samples_length_lt ((fgetsChunks n content).map (fun l => cstr l 0))
    ⟨cstr l 0, List.mem_map_of_mem _ hl, lt_of_le_of_lt (tokens_cstr_length_le l) hlt⟩
  rw [List.length_map] at hs2
  exact ⟨by rw [hd, hlines]; exact_mod_cast hs2, by rw [hi, hlines]; exact_mod_cast hs2⟩

/-- C3, witness: three iterations on the three-line file, whose second line
has no token. -/
theorem C3_loop_invariant_witness :
    (3 < 2147483648) ∧ (∃ l ∈ fgetsChunks 3 threeLineFile, (tokens l).length < 2)
    ∧ (readLoop 3 (initialState threeLineFile)).lines = 3
    ∧ ((readLoop 3 (initialState threeLineFile)).doubles.length : Int)
        < (readLoop 3 (initialState threeLineFile)).lines :=
  ⟨by decide, by decide, by decide,
    ((C3_loop_invariant threeLineFile 3 (by decide)).2.2.2 (by decide)).1⟩

/-- C3, as stated, fails. After 2^31 iterations on a file of 2^31 newline
characters the counter `lines`, a 32-bit `int`, has wrapped around to -2^31,
below the length 0 of the two sequences. After one iteration on the file `a`,
space, tab, newline, whose line has a single whitespace-separated token, both
sequences have length 1 and the counter is 1: the inequality is not strict,
because `strtok` takes the tab for a second token. -/
theorem C3_counterexample :
    ((readLoop 2147483648 (initialState (List.replicate 2147483648 '\n'))).lines
        = -2147483648
      ∧ (readLoop 2147483648 (initialState (List.replicate 2147483648 '\n'))).doubles = []
      ∧ (readLoop 2147483648 (initialState (List.replicate 2147483648 '\n'))).ints = []
      ∧ ¬ (((readLoop 2147483648
              (initialState (List.replicate 2147483648 '\n'))).doubles.length : Int)
            ≤ (readLoop 2147483648 (initialState (List.replicate 2147483648 '\n'))).lines))
    ∧ ((∃ l ∈ fgetsChunks 1 lineWithTrailingTab, (whitespaceTokens l).length < 2)
      ∧ (readLoop 1 (initialState lineWithTrailingTab)).doubles.length = 1
      ∧ (readLoop 1 (initialState lineWithTrailingTab)).ints.length = 1
      ∧ (readLoop 1 (initialState lineWithTrailingTab)).lines = 1
      ∧ ¬ (((readLoop 1 (initialState lineWithTrailingTab)).doubles.length : Int)
            < (readLoop 1 (initialState lineWithTrailingTab)).lines)) := by
  refine ⟨?_, by decide⟩
  rw [readLoop_newlines_initial 2147483648]
  have e : wrapInt32 ((2147483648 : Nat) : Int) = -2147483648 := by decide
  simp only [e]
  decide

/-- C4, amended. For every line with fewer than two tokens, a token being a
maximal run of characters other than space and newline (an empty line, a line
of only spaces and newline, or a single-token line), and for every prior
content of the two sequences, `ParseLine` returns with both sequences
unchanged. -/
theorem C4_short_line_skipped (doubles : List FloatVal) (ints : List Int)
    (pline : List Char) (h : (tokens (cstr pline 0)).length < 2) :
    ParseLine doubles ints pline = (doubles, ints) := by
  rw [ParseLine_eq, sampleOfTokens_eq_none _ h]
  rfl

/-- C4, witness: the single-token line `42`, newline, the empty line and a line
of spaces, each with one sample present before the call. -/
theorem C4_short_line_skipped_witness :
    ((tokens (cstr "42\n".toList 0)).length < 2
      ∧ ParseLine [.finite 1] [5] "42\n".toList = ([.finite 1], [5]))
    ∧ ((tokens (cstr [] 0)).length < 2
      ∧ ParseLine [.finite 1] [5] [] = ([.finite 1], [5]))
    ∧ ((tokens (cstr "   \n".toList 0)).length < 2
      ∧ ParseLine [.finite 1] [5] "   \n".toList = ([.finite 1], [5])) :=
  ⟨⟨by decide, C4_short_line_skipped [.finite 1] [5] "42\n".toList (by decide)⟩,
    ⟨by decide, C4_short_line_skipped [.finite 1] [5] [] (by decide)⟩,
    ⟨by decide, C4_short_line_skipped [.finite 1] [5] "   \n".toList (by decide)⟩⟩

/-- C4, as stated, fails. The line `a`, space, tab, newline has a single
token, a maximal run of non-whitespace characters, yet `ParseLine` appends the
sample (0.0, 0): the tab is no delimiter of `strtok`, which returns it as a
second token. -/
theorem C4_counterexample :
    whitespaceTokens (cstr lineWithTrailingTab 0) = [['a']]
    ∧ (whitespaceTokens (cstr lineWithTrailingTab 0)).length < 2
    ∧ (strtok lineWithTrailingTab 0 delimiters).token = some 0
    ∧ (strtok (strtok lineWithTrailingTab 0 delimiters).buf
        (strtok lineWithTrailingTab 0 delimiters).save delimiters).token = some 2
    ∧ ParseLine [] [] lineWithTrailingTab = ([.finite 0], [0])
    ∧ ParseLine [] [] lineWithTrailingTab ≠ ([], []) := by
  decide!

/-- The function `ParseLine` on a buffer whose C string, the characters before
the first NUL, has at least two tokens: one sample is appended, made of the
first two tokens. -/
theorem ParseLine_of_two_tokens (doubles : List FloatVal) (ints : List Int)
    (pline : List Char) (h : 2 ≤ (tokens (cstr pline 0)).length) :
    ∃ t1 t2 rest, tokens (cstr pline 0) = t1 :: t2 :: rest
      ∧ ParseLine doubles ints pline = (doubles ++ [atof t1], ints ++ [atoi t2]) := by
  match hk : tokens (cstr pline 0) with
  | [] => rw [hk] at h; exact absurd h (by simp)
  | [_] => rw [hk] at h; exact absurd h (by simp)
  | t1 :: t2 :: rest =>
    refine ⟨t1, t2, rest, rfl, ?_⟩
    rw [ParseLine_eq, hk]
    rfl

/-- C5, amended. For every line that contains no NUL byte and has at least two
tokens, a token being a maximal run of characters other than space and
newline, `ParseLine` appends exactly one sample, the `atof` value of the first
token and the `atoi` value of the second; whenever the first token does not
begin (after optional white space and sign) with a digit, a point followed by
a digit, or the word inf or nan, the appended floating-point value is 0.0, and
whenever the second token does not begin (after optional white space and
sign) with a digit, the appended integer value is 0. -/
theorem C5_best_effort_conversion (doubles : List FloatVal) (ints : List Int)
    (pline : List Char) (hNUL : ∀ c ∈ pline, c ≠ NUL) (h : 2 ≤ (tokens pline).length) :
    ∃ t1 t2 rest, tokens pline = t1 :: t2 :: rest
      ∧ ParseLine doubles ints pline = (doubles ++ [atof t1], ints ++ [atoi t2])
      ∧ (startsWithFloat t1 = false → atof t1 = .finite 0)
      ∧ (startsWithInt t2 = false → atoi t2 = 0) := by
  have hc : cstr pline 0 = pline := cstr_of_no_NUL pline hNUL
  have h2 : 2 ≤ (tokens (cstr pline 0)).length := by rw [hc]; exact h
  obtain ⟨t1, t2, rest, ht, hp⟩ := ParseLine_of_two_tokens doubles ints pline h2
  rw [hc] at ht
  exact ⟨t1, t2, rest, ht, hp, atof_of_not_startsWithFloat t1,
    atoi_of_not_startsWithInt t2⟩

/-- C5, witness: the line `abc def`, newline, appends the sample (0.0, 0). -/
theorem C5_best_effort_conversion_witness :
    (∀ c ∈ "abc def\n".toList, c ≠ NUL)
    ∧ 2 ≤ (tokens "abc def\n".toList).length
    ∧ ParseLine [] [] "abc def\n".toList = ([.finite 0], [0])
    ∧ ∃ t1 t2 rest, tokens "abc def\n".toList = t1 :: t2 :: rest
      ∧ ParseLine [] [] "abc def\n".toList = ([] ++ [atof t1], [] ++ [atoi t2])
      ∧ (startsWithFloat t1 = false → atof t1 = .finite 0)
      ∧ (startsWithInt t2 = false → atoi t2 = 0) :=
  ⟨by decide, by decide, by decide!,
    C5_best_effort_conversion [] [] "abc def\n".toList (by decide) (by decide)⟩

/-- C5, as stated, fails. In the line `1x 2y`, newline, the first token is not
valid decimal floating-point text and the second is not valid decimal integer
text, yet `ParseLine` appends the sample (1.0, 2): `atof` and `atoi` convert
the longest numeric prefix. The line `1.5`, tab, `3`, newline has two
whitespace-separated tokens, yet `ParseLine` appends nothing: a tab is no
delimiter of `strtok`. The line `1`, NUL, space, `2`, newline has two tokens,
whether white space or only space and newline separates them, yet `ParseLine`
appends nothing: the string seen by `strtok` ends at the NUL. -/
theorem C5_counterexample :
    (whitespaceTokens "1x 2y\n".toList = ["1x".toList, "2y".toList]
      ∧ validDecimalFloat "1x".toList = false
      ∧ validDecimalInt "2y".toList = false
      ∧ ParseLine [] [] "1x 2y\n".toList = ([.finite 1], [2])
      ∧ FloatVal.finite 1 ≠ FloatVal.finite 0 ∧ (2 : Int) ≠ 0)
    ∧ (whitespaceTokens tabSeparatedLine = [['1', '.', '5'], ['3']]
      ∧ 2 ≤ (whitespaceTokens tabSeparatedLine).length
      ∧ ParseLine [] [] tabSeparatedLine = ([], []))
    ∧ (whitespaceTokens lineWithNUL = [['1', NUL], ['2']]
      ∧ tokens lineWithNUL = [['1', NUL], ['2']]
      ∧ 2 ≤ (whitespaceTokens lineWithNUL).length
      ∧ 2 ≤ (tokens lineWithNUL).length
      ∧ tokens (cstr lineWithNUL 0) = [['1']]
      ∧ ParseLine [] [] lineWithNUL = ([], [])) := by
  decide!

/-- C6, amended. For an empty file (zero bytes, zero lines) `ReadFileFgets`
completes with 0 samples in both sequences, a lines-processed count of 0 and a
reported size of 0 MB; the divisor of the throughput division is not guarded:
the throughput is reported as 0 whenever the divisor is not zero, and with a
zero divisor the floating-point division 0/0 is evaluated, which gives NaN. -/
theorem C6_empty_file (fileName : String) (ms : Int) :
    ReadFileFgets fileName (some []) 0 ms
        = { output := [Output.report ⟨0, elapsedSeconds ms, throughput 0 ms, 0⟩]
            fgetsCalls := 1
            parseLineCalls := 0
            doubles := []
            ints := []
            lines := 0 }
    ∧ (throughputDivisor ms ≠ 0 → throughput 0 ms = .finite 0)
    ∧ (throughputDivisor ms = 0 → throughput 0 ms = .nan) := by
  refine ⟨rfl, ?_, ?_⟩
  · intro h
    have h' : ((throughputDivisor ms : Int) : ℚ) ≠ 0 := by exact_mod_cast h
    simp [throughput, floatDiv, h']
  · intro h
    simp [throughput, floatDiv, h]

/-- C6, witness: an empty file read in 2500 ms and in 0 ms. -/
theorem C6_empty_file_witness :
    throughputDivisor 2500 ≠ 0 ∧ throughput 0 2500 = .finite 0
    ∧ throughputDivisor 0 = 0 ∧ throughput 0 0 = .nan :=
  ⟨by decide, (C6_empty_file "NumericData.txt" 2500).2.1 (by decide), by decide,
    (C6_empty_file "NumericData.txt" 0).2.2 (by decide)⟩

/-- C6, as stated, fails. For an empty file read in 0 ms the divisor of the
throughput division is 0, the division is evaluated, and the throughput that
is reported is NaN, not 0. -/
theorem C6_counterexample :
    throughputDivisor 0 = 0
    ∧ (ReadFileFgets "NumericData.txt" (some []) 0 0).output
        = [Output.report ⟨0, .finite 0, .nan, 0⟩]
    ∧ throughput (MB 0) 0 = .nan
    ∧ throughput (MB 0) 0 ≠ .finite 0 := by
  decide!

/-- C7, the code at the failing input. For a file of 10 MiB the reported size
is 10 MB; read in 1500 ms, the reported time is 1.5 s but the reported
throughput is 10 MB/s, the quotient of 10 by the whole seconds 1500 / 1000 = 1,
and not 10 / 1.5; read in 500 ms, the divisor is 0 and the reported throughput
is infinite. -/
theorem C7_throughput_failing_input (fileName : String) (content : List Char) :
    (ReadFileFgets fileName (some content) 10485760 1500).output
        = [Output.report ⟨10, .finite (3 / 2), .finite 10, (readPass content).lines⟩]
    ∧ (10 : ℚ) * 1500 ≠ 1000 * 10
    ∧ (ReadFileFgets fileName (some content) 10485760 500).output
        = [Output.report ⟨10, .finite (1 / 2), .infinite false, (readPass content).lines⟩] := by
  have h1 : MB 10485760 = 10 := by decide
  have h2 : elapsedSeconds 1500 = .finite (3 / 2) := by decide!
  have h3 : throughput 10 1500 = .finite 10 := by decide!
  have h4 : elapsedSeconds 500 = .finite (1 / 2) := by decide!
  have h5 : throughput 10 500 = .infinite false := by decide!
  refine ⟨?_, by norm_num, ?_⟩
  · simp only [ReadFileFgets, h1, h2, h3]
  · simp only [ReadFileFgets, h1, h4, h5]

/-- C8. For every path that cannot be opened, `ReadFileFgets` emits exactly one
output, the text `Could not open file` followed by the given path, emits no
report line, calls neither `fgets` nor `ParseLine`, and returns; the report
line is emitted if and only if the file was opened. -/
theorem C8_open_failure (fileName : String) (filesize ms : Int) :
    (ReadFileFgets fileName none filesize ms).output
        = [Output.text ("\nCould not open file " ++ fileName)]
    ∧ (∀ r, Output.report r ∉ (ReadFileFgets fileName none filesize ms).output)
    ∧ (ReadFileFgets fileName none filesize ms).fgetsCalls = 0
    ∧ (ReadFileFgets fileName none filesize ms).parseLineCalls = 0
    ∧ (∀ file : Option (List Char),
        (∃ r, Output.report r ∈ (ReadFileFgets fileName file filesize ms).output)
          ↔ file.isSome = true) := by
  refine ⟨rfl, ?_, rfl, rfl, ?_⟩
  · intro r hr
    simp [ReadFileFgets] at hr
  · intro file
    cases file with
    | none => simp [ReadFileFgets]
    | some content => simp [ReadFileFgets]

/-- C9, amended. For every file content in which every line (the bytes up to
and including the next newline, or up to end-of-file) is at most 1023 bytes
long and which has fewer than 2^31 lines, each iteration of the read loop of
`ReadFileFgets` consumes exactly one line, the loop ends at the end of the
file, and the lines-processed count equals the number of lines: the number of
newline characters, plus one if the file ends with a non-empty unterminated
line. -/
theorem C9_line_count (content : List Char)
    (hlen : ∀ l ∈ splitLines content, l.length ≤ 1023)
    (hcount : (splitLines content).length < 2147483648) :
    fgetsChunks content.length content = splitLines content
    ∧ loopStep (readPass content) = none
    ∧ (readPass content).lines = ((splitLines content).length : Nat)
    ∧ (splitLines content).length
        = content.count '\n' + (if endsUnterminated content = true then 1 else 0) := by
  have hchunks := fgetsChunks_eq_splitLines content.length content (Nat.le_refl _) hlen
  obtain ⟨_, _, h3, _⟩ := readPass_eq content
  refine ⟨hchunks, (readPass_fp content).2, ?_, ?_⟩
  · rw [h3, hchunks]
    apply wrapInt32_of_range <;> omega
  · have h := linesGo_length content []
    unfold splitLines
    rw [h]
    by_cases hc : content = []
    · subst hc; rfl
    · simp [hc]

/-- C9, witness: the three-line file. -/
theorem C9_line_count_witness :
    (∀ l ∈ splitLines threeLineFile, l.length ≤ 1023)
    ∧ (splitLines threeLineFile).length < 2147483648
    ∧ (splitLines threeLineFile).length = 3
    ∧ (readPass threeLineFile).lines = ((splitLines threeLineFile).length : Nat) :=
  ⟨by decide, by decide, by decide,
    (C9_line_count threeLineFile (by decide) (by decide)).2.2.1⟩

/-- C9, as stated, fails. A file of 1024 letters without a newline is one
line, but the loop consumes it in two iterations (1023 characters, then one)
and the lines-processed count is 2. A file of 2^31 newline characters has 2^31
lines of one byte, but the lines-processed count, a 32-bit `int`, is -2^31. -/
theorem C9_counterexample :
    (splitLines longSingleLine = [longSingleLine]
      ∧ longSingleLine.count '\n' = 0 ∧ endsUnterminated longSingleLine = true
      ∧ (fgetsChunks 2 longSingleLine).map List.length = [1023, 1]
      ∧ (readPass longSingleLine).lines = 2
      ∧ (readPass longSingleLine).lines ≠ ((splitLines longSingleLine).length : Nat))
    ∧ ((splitLines (List.replicate 2147483648 '\n')).length = 2147483648
      ∧ (∀ l ∈ splitLines (List.replicate 2147483648 '\n'), l.length ≤ 1023)
      ∧ (readPass (List.replicate 2147483648 '\n')).lines = -2147483648
      ∧ (readPass (List.replicate 2147483648 '\n')).lines
          ≠ ((splitLines (List.replicate 2147483648 '\n')).length : Nat)) := by
  refine ⟨by set_option maxRecDepth 1000000 in decide!, ?_, ?_, ?_, ?_⟩
  · rw [splitLines_newlines, List.length_replicate]
  · intro l hl
    rw [splitLines_newlines] at hl
    rw [List.eq_of_mem_replicate hl]
    decide
  · rw [readPass_newlines]
    decide
  · rw [readPass_newlines, splitLines_newlines, List.length_replicate]
    decide

/-- C10. In `ParseLine` the comparison `pInt != pDouble` never decides the
outcome: whenever the second `strtok` call returns a token, it starts at a
strictly later position of the line buffer than the first token, and
`ParseLine` gives the same sequences as the variant that tests only
`pInt != nullptr`, for every line and every prior content of the sequences. -/
theorem C10_pointer_test_redundant :
    (∀ (pline : List Char) (p q : Nat),
        (strtok pline 0 delimiters).token = some p →
        (strtok (strtok pline 0 delimiters).buf (strtok pline 0 delimiters).save
          delimiters).token = some q →
        p < q)
    ∧ (∀ (doubles : List FloatVal) (ints : List Int) (pline : List Char),
        ParseLine doubles ints pline = ParseLineNullTestOnly doubles ints pline) := by
  have key : ∀ (pline : List Char) (p q : Nat),
      (strtok pline 0 delimiters).token = some p →
      (strtok (strtok pline 0 delimiters).buf (strtok pline 0 delimiters).save
        delimiters).token = some q → p < q := by
    intro pline p q hp hq
    have h := strtok_pair pline
    match hk : tokens (cstr pline 0) with
    | [] =>
      rw [hk] at h
      simp only at h
      rw [h] at hp
      exact absurd hp (by simp)
    | [t1] =>
      rw [hk] at h
      obtain ⟨_, _, _, h2⟩ := h
      rw [h2] at hq
      exact absurd hq (by simp)
    | t1 :: t2 :: ts =>
      rw [hk] at h
      obtain ⟨p', q', h1, _, h3, h4, _⟩ := h
      rw [h1] at hp
      rw [h3] at hq
      cases hp
      cases hq
      exact h4
  refine ⟨key, ?_⟩
  intro doubles ints pline
  unfold ParseLine ParseLineNullTestOnly
  cases hp : (strtok pline 0 delimiters).token with
  | none => simp only [hp]
  | some p =>
    cases hq : (strtok (strtok pline 0 delimiters).buf (strtok pline 0 delimiters).save
        delimiters).token with
    | none => simp only [hp, hq]
    | some q =>
      have hlt := key pline p q hp hq
      have hne : q ≠ p := by omega
      simp only [hp, hq, ne_eq, hne, not_false_eq_true, if_true]

/-- C10, witness: in the line `1.5 3`, newline, the first token starts at
offset 0 and the second at offset 4. -/
theorem C10_pointer_test_redundant_witness :
    (strtok "1.5 3\n".toList 0 delimiters).token = some 0
    ∧ (strtok (strtok "1.5 3\n".toList 0 delimiters).buf
        (strtok "1.5 3\n".toList 0 delimiters).save delimiters).token = some 4
    ∧ (0 : Nat) < 4
    ∧ ParseLine [] [] "1.5 3\n".toList = ParseLineNullTestOnly [] [] "1.5 3\n".toList :=
  ⟨by decide, by decide,
    C10_pointer_test_redundant.1 "1.5 3\n".toList 0 4 (by decide) (by decide),
    C10_pointer_test_redundant.2 [] [] "1.5 3\n".toList⟩

end CppIOBound
